import Mathlib

/-!
Verification of the spec-metadata compiler of the qpid python client
(`spec.py`, `xmlutil.py`).  The python source is shallowly embedded:

* python dicts become association lists probed by `dlookup` (insertions
  prepend, so the newest binding shadows older ones, matching dict update);
* the `SpecContainer` class becomes a four-component structure whose `add`
  either returns the extended container or the error the python `raise`
  would produce, with all duplicate checks performed before any write,
  exactly as in the source;
* raised exceptions become `Except` errors (`ValueError`/`KeyError`/
  `TypeError` sites are mapped to dedicated constructors).
-/

set_option maxHeartbeats 1000000

namespace QpidSpec

/-- Association-list lookup modelling a python dict probe: first matching
    key wins.  Insertion sites in this development prepend their binding,
    so the newest binding shadows older ones, as in a dict. -/
def dlookup {κ β : Type} [DecidableEq κ] : List (κ × β) → κ → Option β
  | [], _ => none
  | p :: rest, k => if p.1 = k then some p.2 else dlookup rest k

theorem dlookup_nil {κ β : Type} [DecidableEq κ] (k : κ) :
    dlookup ([] : List (κ × β)) k = none := rfl

theorem dlookup_cons {κ β : Type} [DecidableEq κ] (p : κ × β) (l : List (κ × β)) (k : κ) :
    dlookup (p :: l) k = if p.1 = k then some p.2 else dlookup l k := rfl

theorem dlookup_eq_none_iff {κ β : Type} [DecidableEq κ] (l : List (κ × β)) (k : κ) :
    dlookup l k = none ↔ ∀ p ∈ l, p.1 ≠ k := by
  induction l with
  | nil => simp [dlookup]
  | cons p rest ih =>
    by_cases h : p.1 = k
    · simp [dlookup, h]
    · simp [dlookup, h, ih]

theorem dlookup_mem {κ β : Type} [DecidableEq κ] {l : List (κ × β)} {k : κ} {v : β}
    (h : dlookup l k = some v) : (k, v) ∈ l := by
  induction l with
  | nil => simp [dlookup] at h
  | cons p rest ih =>
    obtain ⟨a, b⟩ := p
    rw [dlookup_cons] at h
    by_cases hk : a = k
    · subst hk
      simp at h
      simp [h]
    · rw [if_neg hk] at h
      exact List.mem_cons_of_mem _ (ih h)

theorem dlookup_isSome_iff {κ β : Type} [DecidableEq κ] (l : List (κ × β)) (k : κ) :
    (dlookup l k).isSome ↔ ∃ p ∈ l, p.1 = k := by
  induction l with
  | nil => simp [dlookup]
  | cons p rest ih =>
    by_cases h : p.1 = k
    · simp [dlookup, h]
    · simp only [dlookup_cons, if_neg h, ih]
      constructor
      · rintro ⟨q, hq, hk⟩
        exact ⟨q, List.mem_cons_of_mem _ hq, hk⟩
      · rintro ⟨q, hq, hk⟩
        rcases List.mem_cons.mp hq with rfl | hq
        · exact absurd hk h
        · exact ⟨q, hq, hk⟩

theorem dlookup_map_value {κ β γ : Type} [DecidableEq κ] (g : β → γ)
    (l : List (κ × β)) (k : κ) :
    dlookup (l.map (fun p => (p.1, g p.2))) k = (dlookup l k).map g := by
  induction l with
  | nil => rfl
  | cons p rest ih =>
    by_cases h : p.1 = k
    · simp [dlookup, h]
    · simp [dlookup, h, ih]

/-- Entities stored in a `SpecContainer` expose a `name` and a numeric `id`;
    this mirrors the duck typing the python `SpecContainer.add` relies on. -/
class HasIdentity (α : Type) where
  nameOf : α → String
  idOf : α → Int

export HasIdentity (nameOf idOf)

/-- Errors raised by `SpecContainer.add` (python `ValueError` with a
    "duplicate name"/"duplicate id" message). -/
inductive DupErr where
  | duplicateName
  | duplicateId
deriving DecidableEq

/-- Embedding of the `SpecContainer` class from `spec.py`: the ordered item
    list plus the three lookup dicts maintained by `add`. -/
structure SpecContainer (α : Type) where
  items : List α
  byname : List (String × α)
  byid : List (Int × α)
  indexes : List (α × Nat)
deriving DecidableEq

/-- Empty container, as built by `SpecContainer.__init__`. -/
def SpecContainer.empty {α : Type} : SpecContainer α := ⟨[], [], [], []⟩

/-- State-passing embedding of `SpecContainer.add`: both duplicate checks are
    performed before any write, exactly as in the source, so a raise returns
    the receiver state unchanged together with the error. -/
def SpecContainer.addState {α : Type} [DecidableEq α] [HasIdentity α]
    (c : SpecContainer α) (item : α) : SpecContainer α × Option DupErr :=
  if (dlookup c.byname (nameOf item)).isSome then (c, some .duplicateName)
  else if (dlookup c.byid (idOf item)).isSome then (c, some .duplicateId)
  else
    ({ items := c.items ++ [item],
       byname := (nameOf item, item) :: c.byname,
       byid := (idOf item, item) :: c.byid,
       indexes := (item, c.items.length) :: c.indexes }, none)

/-- `Except` view of `add`: the python caller either observes the raise or
    the mutated container. -/
def SpecContainer.add {α : Type} [DecidableEq α] [HasIdentity α]
    (c : SpecContainer α) (item : α) : Except DupErr (SpecContainer α) :=
  match c.addState item with
  | (_, some e) => .error e
  | (c', none) => .ok c'

/-- Embedding of `SpecContainer.index`: probe the `indexes` dict; `none`
    stands for the re-raised `ValueError` on a miss. -/
def SpecContainer.index {α : Type} [DecidableEq α]
    (c : SpecContainer α) (item : α) : Option Nat :=
  dlookup c.indexes item

/-- Left fold over a list in the `Except` monad, written out so that each
    equation is definitional; this is the shape of every python `for` loop
    whose body may raise. -/
def foldE {σ α ε : Type} (f : σ → α → Except ε σ) : σ → List α → Except ε σ
  | s, [] => .ok s
  | s, x :: xs =>
    match f s x with
    | .error e => .error e
    | .ok s' => foldE f s' xs

theorem foldE_nil {σ α ε : Type} (f : σ → α → Except ε σ) (s : σ) :
    foldE f s [] = .ok s := rfl

theorem foldE_cons {σ α ε : Type} (f : σ → α → Except ε σ) (s : σ) (x : α) (xs : List α) :
    foldE f s (x :: xs) =
      match f s x with
      | .error e => .error e
      | .ok s' => foldE f s' xs := rfl

theorem foldE_append {σ α ε : Type} (f : σ → α → Except ε σ) :
    ∀ (l₁ l₂ : List α) (s : σ),
      foldE f s (l₁ ++ l₂) =
        match foldE f s l₁ with
        | .error e => .error e
        | .ok s' => foldE f s' l₂ := by
  intro l₁
  induction l₁ with
  | nil => intro l₂ s; rfl
  | cons x xs ih =>
    intro l₂ s
    rw [List.cons_append, foldE_cons, foldE_cons]
    cases f s x with
    | error e => rfl
    | ok s' => exact ih l₂ s'

/-- A container built by a sequence of successful `add` calls starting from
    the empty container (every registry the loader constructs arises this
    way). -/
def SpecContainer.ofList {α : Type} [DecidableEq α] [HasIdentity α]
    (l : List α) : Except DupErr (SpecContainer α) :=
  foldE SpecContainer.add SpecContainer.empty l

/-- Reachability invariant of a registry: names and ids are duplicate-free,
    the two lookup dicts agree with a first-match scan of the item list, and
    the position dict maps every item to its position. -/
def Inv {α : Type} [DecidableEq α] [HasIdentity α] (c : SpecContainer α) : Prop :=
  (c.items.map nameOf).Nodup ∧
  (c.items.map (idOf (α := α))).Nodup ∧
  (∀ k, dlookup c.byname k = c.items.find? (fun v => decide (nameOf v = k))) ∧
  (∀ i, dlookup c.byid i = c.items.find? (fun v => decide (idOf v = i))) ∧
  (∀ j x, c.items.get? j = some x → dlookup c.indexes x = some j)

theorem Inv_empty {α : Type} [DecidableEq α] [HasIdentity α] :
    Inv (SpecContainer.empty (α := α)) := by
  refine ⟨List.nodup_nil, List.nodup_nil, ?_, ?_, ?_⟩ <;> intros <;> simp_all [SpecContainer.empty, dlookup]

theorem add_ok_iff_addState {α : Type} [DecidableEq α] [HasIdentity α]
    (c c' : SpecContainer α) (x : α) :
    c.add x = .ok c' ↔ c.addState x = (c', none) := by
  unfold SpecContainer.add
  rcases h : c.addState x with ⟨c₁, e⟩
  cases e <;> simp_all

theorem addState_fresh {α : Type} [DecidableEq α] [HasIdentity α]
    (c : SpecContainer α) (x : α)
    (hn : dlookup c.byname (nameOf x) = none)
    (hi : dlookup c.byid (idOf x) = none) :
    c.addState x =
      ({ items := c.items ++ [x],
         byname := (nameOf x, x) :: c.byname,
         byid := (idOf x, x) :: c.byid,
         indexes := (x, c.items.length) :: c.indexes }, none) := by
  unfold SpecContainer.addState
  rw [hn, hi]
  simp

theorem add_ok_components {α : Type} [DecidableEq α] [HasIdentity α]
    {c c' : SpecContainer α} {x : α} (h : c.add x = .ok c') :
    dlookup c.byname (nameOf x) = none ∧ dlookup c.byid (idOf x) = none ∧
    c'.items = c.items ++ [x] ∧
    c'.byname = (nameOf x, x) :: c.byname ∧
    c'.byid = (idOf x, x) :: c.byid ∧
    c'.indexes = (x, c.items.length) :: c.indexes := by
  rw [add_ok_iff_addState] at h
  unfold SpecContainer.addState at h
  by_cases hn : (dlookup c.byname (nameOf x)).isSome
  · simp [hn] at h
  · by_cases hi : (dlookup c.byid (idOf x)).isSome
    · simp [hn, hi] at h
    · simp only [hn, hi, if_neg, Bool.false_eq_true, ite_false] at h
      rw [Option.not_isSome_iff_eq_none] at hn hi
      injection h with h1 h2
      refine ⟨hn, hi, ?_, ?_, ?_, ?_⟩ <;> rw [← h1]

theorem add_error_of_dup {α : Type} [DecidableEq α] [HasIdentity α]
    {c : SpecContainer α} {x : α}
    (h : (dlookup c.byname (nameOf x)).isSome ∨ (dlookup c.byid (idOf x)).isSome) :
    ∃ e, c.add x = .error e := by
  unfold SpecContainer.add SpecContainer.addState
  by_cases hn : (dlookup c.byname (nameOf x)).isSome
  · exact ⟨.duplicateName, by simp [hn]⟩
  · have hi : (dlookup c.byid (idOf x)).isSome := h.resolve_left hn
    exact ⟨.duplicateId, by simp [hn, hi]⟩

theorem add_ok_of_fresh {α : Type} [DecidableEq α] [HasIdentity α]
    {c : SpecContainer α} {x : α}
    (hn : dlookup c.byname (nameOf x) = none)
    (hi : dlookup c.byid (idOf x) = none) :
    c.add x = .ok { items := c.items ++ [x],
                    byname := (nameOf x, x) :: c.byname,
                    byid := (idOf x, x) :: c.byid,
                    indexes := (x, c.items.length) :: c.indexes } := by
  unfold SpecContainer.add
  rw [addState_fresh c x hn hi]

theorem Inv_add {α : Type} [DecidableEq α] [HasIdentity α]
    {c c' : SpecContainer α} {x : α} (hc : Inv c) (h : c.add x = .ok c') : Inv c' := by
  obtain ⟨hn, hi, hitems, hbyname, hbyid, hindexes⟩ := add_ok_components h
  obtain ⟨nodupN, nodupI, charN, charI, charIdx⟩ := hc
  have hnameFresh : ∀ y ∈ c.items, nameOf y ≠ nameOf x := by
    intro y hy
    have := (charN (nameOf x)) ▸ hn
    rw [List.find?_eq_none] at this
    simpa using this y hy
  have hidFresh : ∀ y ∈ c.items, idOf y ≠ idOf x := by
    intro y hy
    have := (charI (idOf x)) ▸ hi
    rw [List.find?_eq_none] at this
    simpa using this y hy
  have hxNotMem : x ∉ c.items := fun hx => hnameFresh x hx rfl
  refine ⟨?_, ?_, ?_, ?_, ?_⟩
  · rw [hitems, List.map_append]
    rw [List.nodup_append]
    refine ⟨nodupN, List.nodup_singleton _, ?_⟩
    intro a ha hb
    simp at hb
    obtain ⟨y, hy, hny⟩ := List.mem_map.mp ha
    exact hnameFresh y hy (hny.trans hb)
  · rw [hitems, List.map_append]
    rw [List.nodup_append]
    refine ⟨nodupI, List.nodup_singleton _, ?_⟩
    intro a ha hb
    simp at hb
    obtain ⟨y, hy, hny⟩ := List.mem_map.mp ha
    exact hidFresh y hy (hny.trans hb)
  · intro k
    rw [hbyname, hitems, dlookup_cons, List.find?_append]
    by_cases hk : nameOf x = k
    · subst hk
      have : c.items.find? (fun v => decide (nameOf v = nameOf x)) = none := by
        rw [List.find?_eq_none]
        intro y hy
        simpa using hnameFresh y hy
      simp [this]
    · rw [if_neg hk, charN k]
      have : ([x].find? fun v => decide (nameOf v = k)) = none := by
        simp [hk]
      rw [this]
      cases c.items.find? (fun v => decide (nameOf v = k)) <;> rfl
  · intro i
    rw [hbyid, hitems, dlookup_cons, List.find?_append]
    by_cases hk : idOf x = i
    · subst hk
      have : c.items.find? (fun v => decide (idOf v = idOf x)) = none := by
        rw [List.find?_eq_none]
        intro y hy
        simpa using hidFresh y hy
      simp [this]
    · rw [if_neg hk, charI i]
      have : ([x].find? fun v => decide (idOf v = i)) = none := by
        simp [hk]
      rw [this]
      cases c.items.find? (fun v => decide (idOf v = i)) <;> rfl
  · intro j y hj
    rw [hitems] at hj
    rw [hindexes, dlookup_cons]
    by_cases hjlt : j < c.items.length
    · rw [List.get?_append hjlt] at hj
      have hymem : y ∈ c.items := List.get?_mem hj
      have hxy : x ≠ y := fun hxy => hxNotMem (hxy ▸ hymem)
      rw [if_neg hxy]
      exact charIdx j y hj
    · have hge : c.items.length ≤ j := Nat.le_of_not_lt hjlt
      rw [List.get?_append_right hge] at hj
      have : j - c.items.length = 0 := by
        by_contra hne
        rcases Nat.exists_eq_succ_of_ne_zero hne with ⟨m, hm⟩
        rw [hm] at hj
        simp at hj
      rw [this] at hj
      simp at hj
      subst hj
      have : j = c.items.length := Nat.le_antisymm (by omega) hge
      rw [if_pos rfl, this]

theorem foldE_add_ok {α : Type} [DecidableEq α] [HasIdentity α] :
    ∀ (l : List α) (c₀ c : SpecContainer α), Inv c₀ →
      foldE SpecContainer.add c₀ l = .ok c → Inv c ∧ c.items = c₀.items ++ l := by
  intro l
  induction l with
  | nil =>
    intro c₀ c h0 h
    rw [foldE_nil] at h
    injection h with h
    subst h
    exact ⟨h0, by simp⟩
  | cons x rest ih =>
    intro c₀ c h0 h
    rw [foldE_cons] at h
    cases hadd : c₀.add x with
    | error e => rw [hadd] at h; exact absurd h (by simp)
    | ok c₁ =>
      rw [hadd] at h
      have h1 : Inv c₁ := Inv_add h0 hadd
      obtain ⟨hInv, hItems⟩ := ih c₁ c h1 h
      obtain ⟨_, _, hit, _⟩ := add_ok_components hadd
      refine ⟨hInv, ?_⟩
      rw [hItems, hit, List.append_assoc]
      rfl

theorem ofList_ok {α : Type} [DecidableEq α] [HasIdentity α]
    {l : List α} {c : SpecContainer α} (h : SpecContainer.ofList l = .ok c) :
    Inv c ∧ c.items = l := by
  obtain ⟨hInv, hItems⟩ := foldE_add_ok l SpecContainer.empty c Inv_empty h
  exact ⟨hInv, by simpa [SpecContainer.empty] using hItems⟩

theorem find?_name_of_mem {α : Type} [DecidableEq α] [HasIdentity α]
    {l : List α} (hnd : (l.map nameOf).Nodup) {v : α} (hv : v ∈ l) :
    l.find? (fun w => decide (nameOf w = nameOf v)) = some v := by
  induction l with
  | nil => cases hv
  | cons a rest ih =>
    rcases List.mem_cons.mp hv with rfl | hv
    · simp
    · have hna : nameOf a ≠ nameOf v := by
        intro hEq
        have : nameOf v ∈ rest.map nameOf := List.mem_map_of_mem _ hv
        rw [List.map_cons, List.nodup_cons] at hnd
        exact hnd.1 (hEq ▸ this)
      rw [List.find?_cons_of_neg _ (by simpa using hna)]
      rw [List.map_cons, List.nodup_cons] at hnd
      exact ih hnd.2 hv

theorem Inv_byname_some_iff {α : Type} [DecidableEq α] [HasIdentity α]
    {c : SpecContainer α} (hc : Inv c) (k : String) (v : α) :
    dlookup c.byname k = some v ↔ v ∈ c.items ∧ nameOf v = k := by
  obtain ⟨nodupN, _, charN, _, _⟩ := hc
  rw [charN k]
  constructor
  · intro h
    have hm := List.mem_of_find?_eq_some h
    have hp := List.find?_some h
    simp at hp
    exact ⟨hm, hp⟩
  · rintro ⟨hm, rfl⟩
    exact find?_name_of_mem nodupN hm

theorem add_error_iff {α : Type} [DecidableEq α] [HasIdentity α]
    (c : SpecContainer α) (x : α) :
    (∃ e, c.add x = .error e) ↔
      (dlookup c.byname (nameOf x)).isSome ∨ (dlookup c.byid (idOf x)).isSome := by
  constructor
  · rintro ⟨e, he⟩
    by_contra hcon
    push_neg at hcon
    obtain ⟨h1, h2⟩ := hcon
    have hn : dlookup c.byname (nameOf x) = none := by
      rcases hcase : dlookup c.byname (nameOf x) with _ | v
      · rfl
      · exact absurd (by rw [hcase]; rfl) h1
    have hi : dlookup c.byid (idOf x) = none := by
      rcases hcase : dlookup c.byid (idOf x) with _ | v
      · rfl
      · exact absurd (by rw [hcase]; rfl) h2
    have := add_ok_of_fresh hn hi
    rw [this] at he
    cases he
  · exact add_error_of_dup

/-- Embedding of the `Field` class from `spec.py` (name, declared index,
    resolved type name, documentation blocks). -/
structure Field where
  name : String
  id : Int
  type : String
  docs : List (Option String)
deriving DecidableEq

instance : HasIdentity Field := ⟨Field.name, Field.id⟩

/-- C3: in every registry state reachable by successful `add` calls,
    `add(item)` fails (python `ValueError`, the DuplicateIdentity failure)
    exactly when the new item's name or id collides with a previously added
    item; otherwise it appends the item, so iteration order is insertion
    order and `index` afterwards returns the insertion position; `index` of
    every stored item is its insertion position, and names and ids are each
    duplicate-free. -/
theorem C3_registry_uniqueness {α : Type} [DecidableEq α] [HasIdentity α]
    (l : List α) (c : SpecContainer α) (h : SpecContainer.ofList l = .ok c) :
    c.items = l ∧
    (c.items.map nameOf).Nodup ∧
    (c.items.map (idOf (α := α))).Nodup ∧
    (∀ x : α, (∃ e, c.add x = .error e) ↔
        (∃ y ∈ c.items, nameOf y = nameOf x) ∨ (∃ y ∈ c.items, idOf y = idOf x)) ∧
    (∀ x : α, (∀ y ∈ c.items, nameOf y ≠ nameOf x) → (∀ y ∈ c.items, idOf y ≠ idOf x) →
        ∃ c', c.add x = .ok c' ∧ c'.items = c.items ++ [x] ∧
          c'.index x = some c.items.length) ∧
    (∀ (j : Nat) (y : α), c.items.get? j = some y → c.index y = some j) := by
  obtain ⟨hInv, hItems⟩ := ofList_ok h
  obtain ⟨nodupN, nodupI, charN, charI, charIdx⟩ := hInv
  refine ⟨hItems, nodupN, nodupI, ?_, ?_, ?_⟩
  · intro x
    rw [add_error_iff, charN, charI, List.find?_isSome, List.find?_isSome]
    simp
  · intro x hn hi
    have hn' : dlookup c.byname (nameOf x) = none := by
      rw [charN, List.find?_eq_none]
      intro y hy
      simpa using hn y hy
    have hi' : dlookup c.byid (idOf x) = none := by
      rw [charI, List.find?_eq_none]
      intro y hy
      simpa using hi y hy
    refine ⟨_, add_ok_of_fresh hn' hi', rfl, ?_⟩
    unfold SpecContainer.index
    rw [dlookup_cons, if_pos rfl]
  · intro j y hj
    exact charIdx j y hj

/-- Concrete fields used to instantiate the registry theorems. -/
def fldA : Field := ⟨"alpha", 1, "octet", []⟩

def fldB : Field := ⟨"beta", 2, "shortstr", []⟩

/-- The registry obtained by adding `fldA` then `fldB` to an empty registry. -/
def regAB : SpecContainer Field :=
  ⟨[fldA, fldB], [("beta", fldB), ("alpha", fldA)], [(2, fldB), (1, fldA)],
   [(fldB, 1), (fldA, 0)]⟩

theorem C3_registry_uniqueness_witness :
    SpecContainer.ofList [fldA, fldB] = .ok regAB ∧
    (regAB.items = [fldA, fldB] ∧
     (regAB.items.map nameOf).Nodup ∧
     (regAB.items.map (idOf (α := Field))).Nodup ∧
     (∀ x : Field, (∃ e, regAB.add x = .error e) ↔
         (∃ y ∈ regAB.items, nameOf y = nameOf x) ∨ (∃ y ∈ regAB.items, idOf y = idOf x)) ∧
     (∀ x : Field, (∀ y ∈ regAB.items, nameOf y ≠ nameOf x) →
         (∀ y ∈ regAB.items, idOf y ≠ idOf x) →
         ∃ c', regAB.add x = .ok c' ∧ c'.items = regAB.items ++ [x] ∧
           c'.index x = some regAB.items.length) ∧
     (∀ (j : Nat) (y : Field), regAB.items.get? j = some y → regAB.index y = some j)) :=
  ⟨rfl, C3_registry_uniqueness [fldA, fldB] regAB rfl⟩

/-- C10: a failing `add` is atomic.  On any registry state, an item whose
    name or id is already bound in the corresponding dict makes `add` raise,
    and the state handed on (first component of the state-passing embedding,
    whose checks precede all writes exactly as in the source) keeps the item
    list, the by-name dict, the by-id dict and the position dict unchanged;
    in particular an item with a fresh name but duplicate id reports the id
    collision and is not recorded under its name. -/
theorem C10_add_atomic_on_failure {α : Type} [DecidableEq α] [HasIdentity α]
    (c : SpecContainer α) (x : α)
    (h : (dlookup c.byname (nameOf x)).isSome ∨ (dlookup c.byid (idOf x)).isSome) :
    (c.addState x).1.items = c.items ∧
    (c.addState x).1.byname = c.byname ∧
    (c.addState x).1.byid = c.byid ∧
    (c.addState x).1.indexes = c.indexes ∧
    (∃ e, (c.addState x).2 = some e ∧ c.add x = .error e) ∧
    (dlookup c.byname (nameOf x) = none →
      (c.addState x).2 = some DupErr.duplicateId) := by
  by_cases hn : (dlookup c.byname (nameOf x)).isSome
  · have hstate : c.addState x = (c, some .duplicateName) := by
      unfold SpecContainer.addState
      rw [if_pos hn]
    rw [hstate]
    refine ⟨rfl, rfl, rfl, rfl, ⟨.duplicateName, rfl, ?_⟩, ?_⟩
    · unfold SpecContainer.add
      rw [hstate]
    · intro habs
      rw [habs] at hn
      cases hn
  · have hi : (dlookup c.byid (idOf x)).isSome := h.resolve_left hn
    have hstate : c.addState x = (c, some .duplicateId) := by
      unfold SpecContainer.addState
      rw [if_neg hn, if_pos hi]
    rw [hstate]
    refine ⟨rfl, rfl, rfl, rfl, ⟨.duplicateId, rfl, ?_⟩, fun _ => rfl⟩
    unfold SpecContainer.add
    rw [hstate]

/-- A field clashing with `fldA` by id (2 is fresh as a name but 1 repeats
    an id), used to witness the atomicity theorem. -/
def fldClash : Field := ⟨"gamma", 1, "bit", []⟩

theorem C10_add_atomic_on_failure_witness :
    ((dlookup regAB.byname (nameOf fldClash)).isSome ∨
      (dlookup regAB.byid (idOf fldClash)).isSome) ∧
    ((regAB.addState fldClash).1.items = regAB.items ∧
     (regAB.addState fldClash).1.byname = regAB.byname ∧
     (regAB.addState fldClash).1.byid = regAB.byid ∧
     (regAB.addState fldClash).1.indexes = regAB.indexes ∧
     (∃ e, (regAB.addState fldClash).2 = some e ∧ regAB.add fldClash = .error e) ∧
     (dlookup regAB.byname (nameOf fldClash) = none →
       (regAB.addState fldClash).2 = some DupErr.duplicateId)) :=
  ⟨Or.inr rfl, C10_add_atomic_on_failure regAB fldClash (Or.inr rfl)⟩

/-- Python values that flow through `Method.arguments`: the possible default
    values from `Method.DEFAULTS` (false, empty strings, the empty table,
    zero, `None`) together with `atom n` standing for arbitrary distinct
    caller-supplied objects. -/
inductive Value where
  | vBool (b : Bool)
  | vStr (s : String)
  | vTable (entries : List (String × String))
  | vInt (i : Int)
  | vNull
  | atom (n : Nat)
deriving DecidableEq

/-- Embedding of the `Method.DEFAULTS` dict keyed by resolved field type;
    `none` models the `KeyError` a type outside the table would raise. -/
def DEFAULTS : String → Option Value
  | "bit" => some (.vBool false)
  | "shortstr" => some (.vStr "")
  | "longstr" => some (.vStr "")
  | "table" => some (.vTable [])
  | "octet" => some (.vInt 0)
  | "short" => some (.vInt 0)
  | "long" => some (.vInt 0)
  | "longlong" => some (.vInt 0)
  | "timestamp" => some (.vInt 0)
  | "content" => some .vNull
  | _ => none

/-- Errors raised out of `Method.arguments`: the three `TypeError` messages
    of `_type_error`, plus the `KeyError`/`ValueError` a malformed registry
    would produce from `DEFAULTS[...]` or `fields.index(...)`. -/
inductive ArgErr where
  | tooManyArguments
  | multipleValues (key : String)
  | unknownArgument (key : String)
  | missingDefault (ty : String)
  | missingIndex (fname : String)
deriving DecidableEq

/-- Embedding of the `Method` class from `spec.py`.  The cyclic back
    reference `self.klass` is broken to the owning class name; `responses`
    keeps the raw response names (the python load replaces them by aliases
    of the registry entries, so the resolved list is recovered by probing
    the method registry with these names), and `response` is the is-response
    flag. -/
structure Method where
  klassName : String
  name : String
  id : Int
  content : Bool
  responses : List String
  synchronous : Bool
  description : Option String
  docs : List (Option String)
  fields : SpecContainer Field
  response : Bool
deriving DecidableEq

instance : HasIdentity Method := ⟨Method.name, Method.id⟩

/-- Removal of the first binding of a key, modelling `kwargs.pop(key)` on a
    dict (which holds at most one binding per key). -/
def kwErase (kw : List (String × Value)) (k : String) : List (String × Value) :=
  match kw with
  | [] => []
  | p :: rest => if p.1 = k then rest else p :: kwErase rest k

/-- The field loop of `Method.arguments`: for each field in registry order
    take the positional value if the field's index is in range, else pop the
    named value, else the default from `DEFAULTS`.  Returns the canonical
    value list together with the kwargs left unconsumed. -/
def fillArgs (idxOf : Field → Option Nat) (args : List Value) :
    List Field → List (String × Value) → Except ArgErr (List Value × List (String × Value))
  | [], kw => .ok ([], kw)
  | f :: fs, kw =>
    match idxOf f with
    | none => .error (.missingIndex f.name)
    | some idx =>
      if idx < args.length then
        match fillArgs idxOf args fs kw with
        | .error e => .error e
        | .ok (res, kw') => .ok (args.getD idx Value.vNull :: res, kw')
      else
        match dlookup kw f.name with
        | some v =>
          match fillArgs idxOf args fs (kwErase kw f.name) with
          | .error e => .error e
          | .ok (res, kw') => .ok (v :: res, kw')
        | none =>
          match DEFAULTS f.type with
          | some d =>
            match fillArgs idxOf args fs kw with
            | .error e => .error e
            | .ok (res, kw') => .ok (d :: res, kw')
          | none => .error (.missingDefault f.type)

/-- Embedding of `Method.arguments`: reject oversupply, fill every field in
    registry order, then report the first leftover named value as a
    multiple-values or unexpected-keyword `TypeError`. -/
def Method.arguments (m : Method) (args : List Value) (kwargs : List (String × Value)) :
    Except ArgErr (List Value) :=
  if args.length + kwargs.length > m.fields.items.length then .error .tooManyArguments
  else
    match fillArgs (fun f => dlookup m.fields.indexes f) args m.fields.items kwargs with
    | .error e => .error e
    | .ok (result, rem) =>
      match rem with
      | [] => .ok result
      | (k, _) :: _ =>
        if (dlookup m.fields.byname k).isSome then .error (.multipleValues k)
        else .error (.unknownArgument k)

theorem kwErase_lookup_none {kw : List (String × Value)} {k : String}
    (h : dlookup kw k = none) (k' : String) : dlookup (kwErase kw k') k = none := by
  induction kw with
  | nil => rfl
  | cons p rest ih =>
    rw [dlookup_cons] at h
    by_cases hp : p.1 = k
    · rw [if_pos hp] at h; cases h
    · rw [if_neg hp] at h
      unfold kwErase
      by_cases hk : p.1 = k'
      · rw [if_pos hk]; exact h
      · rw [if_neg hk, dlookup_cons, if_neg hp]; exact ih h

theorem fill_positional (idxOf : Field → Option Nat) (args : List Value) :
    ∀ (gs : List Field) (p : Nat) (kw : List (String × Value)),
      (∀ j f, gs.get? j = some f → idxOf f = some (p + j)) →
      p + gs.length ≤ args.length →
      fillArgs idxOf args gs kw = .ok ((args.drop p).take gs.length, kw) := by
  intro gs
  induction gs with
  | nil => intro p kw _ _; simp [fillArgs]
  | cons g gs ih =>
    intro p kw hidx hlen
    have hg : idxOf g = some p := by simpa using hidx 0 g rfl
    have hplt : p < args.length := by
      simp only [List.length_cons] at hlen
      omega
    have hidx' : ∀ j f, gs.get? j = some f → idxOf f = some ((p + 1) + j) := by
      intro j f hj
      have := hidx (j + 1) f (by simpa using hj)
      rw [this]
      congr 1
      omega
    have hrec := ih (p + 1) kw hidx' (by simp only [List.length_cons] at hlen; omega)
    unfold fillArgs
    rw [hg]
    simp only [if_pos hplt, hrec]
    rw [List.drop_eq_getElem_cons hplt, List.length_cons, List.take_succ_cons]
    rw [List.getD_eq_getElem?_getD, List.getElem?_eq_getElem hplt]
    rfl

theorem fillArgs_cons_some (idxOf : Field → Option Nat) (args : List Value)
    {g : Field} {idx : Nat} (hg : idxOf g = some idx)
    (fs : List Field) (kw : List (String × Value)) :
    fillArgs idxOf args (g :: fs) kw =
      if idx < args.length then
        match fillArgs idxOf args fs kw with
        | .error e => .error e
        | .ok (res, kw') => .ok (args.getD idx Value.vNull :: res, kw')
      else
        match dlookup kw g.name with
        | some v =>
          match fillArgs idxOf args fs (kwErase kw g.name) with
          | .error e => .error e
          | .ok (res, kw') => .ok (v :: res, kw')
        | none =>
          match DEFAULTS g.type with
          | some d =>
            match fillArgs idxOf args fs kw with
            | .error e => .error e
            | .ok (res, kw') => .ok (d :: res, kw')
          | none => .error (.missingDefault g.type) := by
  conv_lhs => rw [fillArgs.eq_def]
  simp only [hg]

theorem fill_named (idxOf : Field → Option Nat) (val : Field → Value) :
    ∀ gs : List Field,
      (∀ f ∈ gs, (idxOf f).isSome) →
      fillArgs idxOf [] gs (gs.map (fun f => (f.name, val f))) = .ok (gs.map val, []) := by
  intro gs
  induction gs with
  | nil => intro _; rfl
  | cons g gs ih =>
    intro hidx
    obtain ⟨j, hj⟩ := Option.isSome_iff_exists.mp (hidx g (List.mem_cons_self _ _))
    rw [fillArgs_cons_some idxOf [] hj]
    have hnotlt : ¬ j < ([] : List Value).length := by simp
    rw [if_neg hnotlt]
    have hhead : dlookup ((g :: gs).map (fun f => (f.name, val f))) g.name = some (val g) := by
      rw [List.map_cons, dlookup_cons, if_pos rfl]
    rw [List.map_cons] at hhead ⊢
    rw [show dlookup ((g.name, val g) :: gs.map (fun f => (f.name, val f))) g.name
          = some (val g) from by rw [dlookup_cons, if_pos rfl]]
    rw [show kwErase ((g.name, val g) :: gs.map (fun f => (f.name, val f))) g.name
          = gs.map (fun f => (f.name, val f)) from by unfold kwErase; rw [if_pos rfl]]
    rw [ih (fun f hf => hidx f (List.mem_cons_of_mem _ hf))]
    rfl

theorem fill_default (idxOf : Field → Option Nat) (args : List Value) :
    ∀ (gs : List Field) (p : Nat) (kw res : List _) (kwr : List _) (j : Nat) (f : Field),
      fillArgs idxOf args gs kw = .ok (res, kwr) →
      gs.get? j = some f →
      args.length ≤ p + j →
      (∀ j' f', gs.get? j' = some f' → idxOf f' = some (p + j')) →
      dlookup kw f.name = none →
      res.get? j = DEFAULTS f.type := by
  intro gs
  induction gs with
  | nil =>
    intro p kw res kwr j f _ hget _ _ _
    simp at hget
  | cons g gs ih =>
    intro p kw res kwr j f hfill hget hlen hidx hkw
    have hg : idxOf g = some p := by simpa using hidx 0 g rfl
    have hidx' : ∀ j' f', gs.get? j' = some f' → idxOf f' = some ((p + 1) + j') := by
      intro j' f' hj'
      have := hidx (j' + 1) f' (by simpa using hj')
      rw [this]
      congr 1
      omega
    rw [fillArgs_cons_some idxOf args hg] at hfill
    by_cases hplt : p < args.length
    · rw [if_pos hplt] at hfill
      cases j with
      | zero =>
        simp at hget
        subst hget
        omega
      | succ j' =>
        simp only [List.get?_cons_succ] at hget
        cases hrec : fillArgs idxOf args gs kw with
        | error e => rw [hrec] at hfill; cases hfill
        | ok pr =>
          obtain ⟨res', kwr'⟩ := pr
          rw [hrec] at hfill
          injection hfill with h1
          injection h1 with h2 h3
          subst h2
          exact ih (p + 1) kw res' kwr' j' f hrec hget (by omega) hidx' hkw
    · rw [if_neg hplt] at hfill
      cases hlk : dlookup kw g.name with
      | some v =>
        rw [hlk] at hfill
        cases j with
        | zero =>
          simp at hget
          subst hget
          rw [hkw] at hlk
          cases hlk
        | succ j' =>
          simp only [List.get?_cons_succ] at hget
          cases hrec : fillArgs idxOf args gs (kwErase kw g.name) with
          | error e => rw [hrec] at hfill; cases hfill
          | ok pr =>
            obtain ⟨res', kwr'⟩ := pr
            rw [hrec] at hfill
            injection hfill with h1
            injection h1 with h2 h3
            subst h2
            exact ih (p + 1) (kwErase kw g.name) res' kwr' j' f hrec hget (by omega) hidx'
              (kwErase_lookup_none hkw g.name)
      | none =>
        rw [hlk] at hfill
        cases hdef : DEFAULTS g.type with
        | none => rw [hdef] at hfill; cases hfill
        | some d =>
          rw [hdef] at hfill
          cases hrec : fillArgs idxOf args gs kw with
          | error e => rw [hrec] at hfill; cases hfill
          | ok pr =>
            obtain ⟨res', kwr'⟩ := pr
            rw [hrec] at hfill
            injection hfill with h1
            injection h1 with h2 h3
            subst h2
            cases j with
            | zero =>
              simp at hget
              subst hget
              rw [hdef]
              rfl
            | succ j' =>
              simp only [List.get?_cons_succ] at hget
              exact ih (p + 1) kw res' kwr' j' f hrec hget (by omega) hidx' hkw

theorem arguments_guard (m : Method) (args : List Value) (kwargs : List (String × Value))
    (hgt : args.length + kwargs.length > m.fields.items.length) :
    m.arguments args kwargs = .error .tooManyArguments := by
  unfold Method.arguments
  rw [if_pos hgt]

theorem arguments_eq (m : Method) (args : List Value) (kwargs : List (String × Value))
    (hle : ¬ args.length + kwargs.length > m.fields.items.length) :
    m.arguments args kwargs =
      match fillArgs (fun f => dlookup m.fields.indexes f) args m.fields.items kwargs with
      | .error e => .error e
      | .ok (result, rem) =>
        match rem with
        | [] => .ok result
        | (k, _) :: _ =>
          if (dlookup m.fields.byname k).isSome then .error (.multipleValues k)
          else .error (.unknownArgument k) := by
  unfold Method.arguments
  rw [if_neg hle]

/-- C1: on a method whose field registry was built by successful `add`
    calls, `arguments` is call-shape insensitive: supplying all values
    positionally, or all values named by their field names, produces the
    identical tuple in field-declaration order, and any field that receives
    neither a positional value at its index nor a named value for its name
    is filled with the `DEFAULTS` entry of its resolved type, the entries
    being: bit to false, shortstr/longstr to the empty string, table to the
    empty mapping, octet/short/long/longlong/timestamp to zero and content
    to null. -/
theorem C1_arguments_call_shape (fs : List Field) (m : Method)
    (h : SpecContainer.ofList fs = .ok m.fields) :
    (∀ vals : List Value, vals.length = fs.length →
        m.arguments vals [] = .ok vals) ∧
    (∀ val : Field → Value,
        m.arguments (fs.map val) [] = .ok (fs.map val) ∧
        m.arguments [] (fs.map (fun f => (f.name, val f))) = .ok (fs.map val)) ∧
    (∀ (args : List Value) (kwargs : List (String × Value)) (res : List Value)
        (j : Nat) (f : Field),
        m.arguments args kwargs = .ok res →
        fs.get? j = some f →
        args.length ≤ j →
        dlookup kwargs f.name = none →
        res.get? j = DEFAULTS f.type) ∧
    (DEFAULTS "bit" = some (.vBool false) ∧ DEFAULTS "shortstr" = some (.vStr "") ∧
     DEFAULTS "longstr" = some (.vStr "") ∧ DEFAULTS "table" = some (.vTable []) ∧
     DEFAULTS "octet" = some (.vInt 0) ∧ DEFAULTS "short" = some (.vInt 0) ∧
     DEFAULTS "long" = some (.vInt 0) ∧ DEFAULTS "longlong" = some (.vInt 0) ∧
     DEFAULTS "timestamp" = some (.vInt 0) ∧ DEFAULTS "content" = some Value.vNull) := by
  obtain ⟨hInv, hitems⟩ := ofList_ok h
  have hidx : ∀ (p : Nat), ∀ j f, fs.get? j = some f →
      (fun f => dlookup m.fields.indexes f) f = some (0 + j) := by
    intro _ j f hj
    rw [Nat.zero_add]
    exact hInv.2.2.2.2 j f (by rw [hitems]; exact hj)
  have hpos : ∀ vals : List Value, vals.length = fs.length → m.arguments vals [] = .ok vals := by
    intro vals hlen
    rw [arguments_eq m vals [] (by rw [hitems]; simp; omega)]
    rw [hitems]
    rw [fill_positional _ vals fs 0 [] (hidx 0) (by omega)]
    simp [hlen]
  refine ⟨hpos, ?_, ?_, by repeat constructor⟩
  · intro val
    refine ⟨hpos (fs.map val) (by simp), ?_⟩
    rw [arguments_eq m [] (fs.map (fun f => (f.name, val f)))
        (by rw [hitems]; simp)]
    rw [hitems]
    have hsome : ∀ f ∈ fs, ((fun f => dlookup m.fields.indexes f) f).isSome := by
      intro f hf
      obtain ⟨j, hj⟩ := List.get?_of_mem hf
      exact Option.isSome_iff_exists.mpr ⟨0 + j, hidx 0 j f hj⟩
    rw [fill_named _ val fs hsome]
  · intro args kwargs res j f harg hget hlen hkw
    by_cases hgt : args.length + kwargs.length > m.fields.items.length
    · rw [arguments_guard m args kwargs hgt] at harg
      cases harg
    · rw [arguments_eq m args kwargs hgt] at harg
      cases hfill : fillArgs (fun f => dlookup m.fields.indexes f) args m.fields.items kwargs with
      | error e =>
        rw [hfill] at harg
        cases harg
      | ok pr =>
        obtain ⟨result, rem⟩ := pr
        rw [hfill] at harg
        cases rem with
        | nil =>
          injection harg with hres
          subst hres
          rw [hitems] at hfill
          exact fill_default _ args fs 0 kwargs result [] j f hfill hget (by omega) (hidx 0) hkw
        | cons q qs =>
          obtain ⟨k, v⟩ := q
          by_cases hb : (dlookup m.fields.byname k).isSome
          · simp only [hb, if_pos] at harg
            cases harg
          · simp only [hb, if_neg, Bool.false_eq_true, ite_false] at harg
            cases harg

/-- A concrete method over the registry `regAB`, used to instantiate the
    `arguments` theorems. -/
def basicM : Method :=
  ⟨"basic", "publish", 10, true, [], false, none, [], regAB, false⟩

/-- Value assignment used by the call-shape witness. -/
def valW : Field → Value :=
  fun f => if f.name = "alpha" then Value.vInt 5 else Value.atom 1

theorem C1_arguments_call_shape_witness :
    SpecContainer.ofList [fldA, fldB] = .ok basicM.fields ∧
    basicM.arguments [Value.vInt 5, Value.atom 1] [] =
      .ok [Value.vInt 5, Value.atom 1] ∧
    basicM.arguments [] [("alpha", Value.vInt 5), ("beta", Value.atom 1)] =
      .ok [Value.vInt 5, Value.atom 1] ∧
    ([Value.vInt 0, Value.vStr ""] : List Value).get? 0 = DEFAULTS fldA.type := by
  have h := C1_arguments_call_shape [fldA, fldB] basicM rfl
  refine ⟨rfl, h.1 [Value.vInt 5, Value.atom 1] rfl, ?_, ?_⟩
  · exact (h.2.1 valW).2
  · exact h.2.2.1 [] [] [Value.vInt 0, Value.vStr ""] 0 fldA rfl rfl (by decide) rfl

/-- A named value with key `k` is consumed by the field loop of `arguments`
    exactly when some field at position `p + j` whose index is beyond the
    positional values carries that name. -/
def consumedKey (args : List Value) : Nat → List Field → String → Bool
  | _, [], _ => false
  | p, g :: gs, k =>
    (decide (g.name = k) && decide (args.length ≤ p)) || consumedKey args (p + 1) gs k

theorem consumedKey_cons (args : List Value) (p : Nat) (g : Field) (gs : List Field)
    (k : String) :
    consumedKey args p (g :: gs) k =
      ((decide (g.name = k) && decide (args.length ≤ p)) ||
        consumedKey args (p + 1) gs k) := rfl

theorem consumedKey_iff (args : List Value) :
    ∀ (gs : List Field) (p : Nat) (k : String),
      consumedKey args p gs k = true ↔
        ∃ j f, gs.get? j = some f ∧ f.name = k ∧ args.length ≤ p + j := by
  intro gs
  induction gs with
  | nil => intro p k; simp [consumedKey]
  | cons g gs ih =>
    intro p k
    unfold consumedKey
    rw [Bool.or_eq_true, Bool.and_eq_true, decide_eq_true_iff, decide_eq_true_iff, ih]
    constructor
    · rintro (⟨hn, hp⟩ | ⟨j, f, hj, hn, hp⟩)
      · exact ⟨0, g, rfl, hn, by omega⟩
      · exact ⟨j + 1, f, by simpa using hj, hn, by omega⟩
    · rintro ⟨j, f, hj, hn, hp⟩
      cases j with
      | zero =>
        simp at hj
        subst hj
        exact Or.inl ⟨hn, by omega⟩
      | succ j' =>
        simp only [List.get?_cons_succ] at hj
        exact Or.inr ⟨j', f, hj, hn, by omega⟩

theorem kwErase_sublist (kw : List (String × Value)) (k : String) :
    List.Sublist (kwErase kw k) kw := by
  induction kw with
  | nil => exact List.Sublist.refl _
  | cons p rest ih =>
    unfold kwErase
    by_cases hp : p.1 = k
    · rw [if_pos hp]
      exact List.sublist_cons_self _ _
    · rw [if_neg hp]
      exact List.Sublist.cons₂ _ ih

theorem filter_kwErase (k : String) (q : String × Value → Bool) :
    ∀ kw : List (String × Value), (kw.map Prod.fst).Nodup →
      kw.filter (fun pr => !decide (pr.1 = k) && q pr) = (kwErase kw k).filter q := by
  intro kw
  induction kw with
  | nil => intro _; rfl
  | cons p rest ih =>
    intro hnd
    rw [List.map_cons, List.nodup_cons] at hnd
    unfold kwErase
    by_cases hp : p.1 = k
    · rw [if_pos hp]
      rw [List.filter_cons]
      rw [show (!decide (p.1 = k) && q p) = false by simp [hp]]
      simp only [Bool.false_eq_true, if_neg]
      rw [List.filter_congr]
      · rfl
      · intro pr hpr
        have hne : pr.1 ≠ k := by
          intro hEq
          exact hnd.1 (hp ▸ hEq ▸ List.mem_map_of_mem Prod.fst hpr)
        simp [hne]
    · rw [if_neg hp]
      rw [List.filter_cons, List.filter_cons]
      rw [show (!decide (p.1 = k) && q p) = q p by simp [hp]]
      rw [ih hnd.2]

theorem fill_total (idxOf : Field → Option Nat) (args : List Value) :
    ∀ (gs : List Field) (p : Nat) (kw : List (String × Value)),
      (∀ j f, gs.get? j = some f → idxOf f = some (p + j)) →
      ((kw.map Prod.fst).Nodup) →
      (∀ f ∈ gs, (DEFAULTS f.type).isSome) →
      ∃ res, fillArgs idxOf args gs kw =
        .ok (res, kw.filter (fun pr => !(consumedKey args p gs pr.1))) := by
  intro gs
  induction gs with
  | nil =>
    intro p kw _ _ _
    refine ⟨[], ?_⟩
    rw [show kw.filter (fun pr => !(consumedKey args p [] pr.1)) = kw from ?_]
    · rfl
    · rw [List.filter_eq_self]
      intro pr _
      rfl
  | cons g gs ih =>
    intro p kw hidx hnd hdef
    have hg : idxOf g = some p := by simpa using hidx 0 g rfl
    have hidx' : ∀ j f, gs.get? j = some f → idxOf f = some ((p + 1) + j) := by
      intro j f hj
      have := hidx (j + 1) f (by simpa using hj)
      rw [this]
      congr 1
      omega
    rw [fillArgs_cons_some idxOf args hg]
    by_cases hplt : p < args.length
    · rw [if_pos hplt]
      obtain ⟨res, hres⟩ := ih (p + 1) kw hidx' hnd
        (fun f hf => hdef f (List.mem_cons_of_mem _ hf))
      rw [hres]
      refine ⟨args.getD p Value.vNull :: res, ?_⟩
      have hfc : kw.filter (fun pr => !(consumedKey args p (g :: gs) pr.1)) =
          kw.filter (fun pr => !(consumedKey args (p + 1) gs pr.1)) := by
        apply List.filter_congr
        intro pr _
        rw [consumedKey_cons]
        rw [show decide (args.length ≤ p) = false by simp; omega]
        simp
      rw [hfc]
    · rw [if_neg hplt]
      have hlep : decide (args.length ≤ p) = true := by simp; omega
      cases hlk : dlookup kw g.name with
      | some v =>
        have hnd' : ((kwErase kw g.name).map Prod.fst).Nodup :=
          List.Nodup.sublist (List.Sublist.map Prod.fst (kwErase_sublist kw g.name)) hnd
        obtain ⟨res, hres⟩ := ih (p + 1) (kwErase kw g.name) hidx' hnd'
          (fun f hf => hdef f (List.mem_cons_of_mem _ hf))
        rw [hres]
        refine ⟨v :: res, ?_⟩
        have hfc : kw.filter (fun pr => !(consumedKey args p (g :: gs) pr.1)) =
            (kwErase kw g.name).filter (fun pr => !(consumedKey args (p + 1) gs pr.1)) := by
          rw [← filter_kwErase g.name _ kw hnd]
          apply List.filter_congr
          intro pr _
          rw [consumedKey_cons]
          rw [hlep]
          rw [show (decide (g.name = pr.1) && true) = decide (pr.1 = g.name) by
            rw [Bool.and_true]; rw [decide_eq_decide]; exact eq_comm]
          rw [Bool.not_or]
        rw [hfc]
      | none =>
        have hnokey : ∀ pr ∈ kw, pr.1 ≠ g.name := by
          intro pr hpr
          exact (dlookup_eq_none_iff kw g.name).mp hlk pr hpr
        obtain ⟨d, hd⟩ := Option.isSome_iff_exists.mp (hdef g (List.mem_cons_self _ _))
        rw [hd]
        obtain ⟨res, hres⟩ := ih (p + 1) kw hidx' hnd
          (fun f hf => hdef f (List.mem_cons_of_mem _ hf))
        rw [hres]
        refine ⟨d :: res, ?_⟩
        have hfc : kw.filter (fun pr => !(consumedKey args p (g :: gs) pr.1)) =
            kw.filter (fun pr => !(consumedKey args (p + 1) gs pr.1)) := by
          apply List.filter_congr
          intro pr hpr
          rw [consumedKey_cons]
          rw [show decide (g.name = pr.1) = false by
            simp; exact fun hEq => (hnokey pr hpr) hEq.symm]
          simp
        rw [hfc]

/-- C2: on a method whose field registry was built by successful `add`
    calls, with dict-shaped kwargs (duplicate-free keys) over the framework
    field types, `arguments` raises TooManyArguments exactly when the number
    of positional plus named values exceeds the field count; otherwise the
    call succeeds exactly when every named value is consumed by a field
    beyond the positional range, a MultipleValues failure names a key that
    was supplied and matches a field filled positionally, and an
    UnknownArgument failure names a key that was supplied and matches no
    field. -/
theorem C2_arguments_errors (fs : List Field) (m : Method)
    (h : SpecContainer.ofList fs = .ok m.fields)
    (args : List Value) (kwargs : List (String × Value))
    (hkwnd : (kwargs.map Prod.fst).Nodup)
    (hdef : ∀ f ∈ fs, (DEFAULTS f.type).isSome) :
    (m.arguments args kwargs = .error .tooManyArguments ↔
        args.length + kwargs.length > fs.length) ∧
    ((∃ res, m.arguments args kwargs = .ok res) ↔
        (args.length + kwargs.length ≤ fs.length ∧
         ∀ pr ∈ kwargs, ∃ j f, fs.get? j = some f ∧ f.name = pr.1 ∧ args.length ≤ j)) ∧
    (∀ k, m.arguments args kwargs = .error (.multipleValues k) →
        ((∃ v, (k, v) ∈ kwargs) ∧
         ∃ j f, fs.get? j = some f ∧ f.name = k ∧ j < args.length)) ∧
    (∀ k, m.arguments args kwargs = .error (.unknownArgument k) →
        ((∃ v, (k, v) ∈ kwargs) ∧ ∀ f ∈ fs, f.name ≠ k)) := by
  obtain ⟨hInv, hitems⟩ := ofList_ok h
  have hbyname : ∀ k, (dlookup m.fields.byname k).isSome ↔ ∃ y ∈ fs, y.name = k := by
    intro k
    rw [hInv.2.2.1 k, hitems, List.find?_isSome]
    simp only [decide_eq_true_iff]
    exact Iff.rfl
  by_cases hgt : args.length + kwargs.length > fs.length
  · have harg : m.arguments args kwargs = .error .tooManyArguments :=
      arguments_guard m args kwargs (by rw [hitems]; exact hgt)
    refine ⟨⟨fun _ => hgt, fun _ => harg⟩, ?_, ?_, ?_⟩
    · constructor
      · rintro ⟨res, hres⟩
        rw [harg] at hres
        cases hres
      · rintro ⟨hle, _⟩
        omega
    · intro k hk
      rw [harg] at hk
      injection hk with h'
      cases h'
    · intro k hk
      rw [harg] at hk
      injection hk with h'
      cases h'
  · have hle : args.length + kwargs.length ≤ fs.length := Nat.le_of_not_lt hgt
    have hidx : ∀ j f, fs.get? j = some f →
        (fun f => dlookup m.fields.indexes f) f = some (0 + j) := by
      intro j f hj
      rw [Nat.zero_add]
      exact hInv.2.2.2.2 j f (by rw [hitems]; exact hj)
    obtain ⟨res0, hfill⟩ := fill_total _ args fs 0 kwargs hidx hkwnd hdef
    have harg2 : m.arguments args kwargs =
        (match kwargs.filter (fun pr => !(consumedKey args 0 fs pr.1)) with
         | [] => Except.ok res0
         | (k, _) :: _ =>
           if (dlookup m.fields.byname k).isSome then .error (.multipleValues k)
           else .error (.unknownArgument k)) := by
      rw [arguments_eq m args kwargs (by rw [hitems]; exact hgt), hitems, hfill]
    cases hremc : kwargs.filter (fun pr => !(consumedKey args 0 fs pr.1)) with
    | nil =>
      have harg : m.arguments args kwargs = .ok res0 := by rw [harg2, hremc]
      have hcons : ∀ pr ∈ kwargs, consumedKey args 0 fs pr.1 = true := by
        intro pr hpr
        have := List.filter_eq_nil_iff.mp hremc pr hpr
        simpa using this
      refine ⟨?_, ?_, ?_, ?_⟩
      · constructor
        · intro hk
          rw [harg] at hk
          cases hk
        · intro hk
          omega
      · constructor
        · intro _
          refine ⟨hle, ?_⟩
          intro pr hpr
          have := (consumedKey_iff args fs 0 pr.1).mp (hcons pr hpr)
          obtain ⟨j, f, hj, hn, hp⟩ := this
          exact ⟨j, f, hj, hn, by omega⟩
        · intro _
          exact ⟨res0, harg⟩
      · intro k hk
        rw [harg] at hk
        cases hk
      · intro k hk
        rw [harg] at hk
        cases hk
    | cons q qs =>
      obtain ⟨k0, v0⟩ := q
      have hmem : (k0, v0) ∈ kwargs ∧ consumedKey args 0 fs k0 = false := by
        have hmemf : (k0, v0) ∈ kwargs.filter (fun pr => !(consumedKey args 0 fs pr.1)) := by
          rw [hremc]
          exact List.mem_cons_self _ _
        have := List.mem_filter.mp hmemf
        refine ⟨this.1, ?_⟩
        have := this.2
        simpa using this
      have hnotRhs : ¬ (args.length + kwargs.length ≤ fs.length ∧
          ∀ pr ∈ kwargs, ∃ j f, fs.get? j = some f ∧ f.name = pr.1 ∧ args.length ≤ j) := by
        rintro ⟨_, hall⟩
        obtain ⟨j, f, hj, hn, hp⟩ := hall (k0, v0) hmem.1
        have : consumedKey args 0 fs k0 = true :=
          (consumedKey_iff args fs 0 k0).mpr ⟨j, f, hj, hn, by omega⟩
        rw [hmem.2] at this
        cases this
      by_cases hb : (dlookup m.fields.byname k0).isSome
      · have harg : m.arguments args kwargs = .error (.multipleValues k0) := by
          rw [harg2, hremc]
          simp [hb]
        refine ⟨?_, ?_, ?_, ?_⟩
        · constructor
          · intro hk
            rw [harg] at hk
            injection hk with h'
            cases h'
          · intro hk
            omega
        · constructor
          · rintro ⟨res, hres⟩
            rw [harg] at hres
            cases hres
          · intro hrhs
            exact absurd hrhs hnotRhs
        · intro k hk
          rw [harg] at hk
          injection hk with h'
          injection h' with h''
          subst h''
          refine ⟨⟨v0, hmem.1⟩, ?_⟩
          obtain ⟨y, hy, hyn⟩ := (hbyname k0).mp hb
          obtain ⟨j, hj⟩ := List.get?_of_mem hy
          refine ⟨j, y, hj, hyn, ?_⟩
          by_contra hlt
          push_neg at hlt
          have : consumedKey args 0 fs k0 = true :=
            (consumedKey_iff args fs 0 k0).mpr ⟨j, y, hj, hyn, by omega⟩
          rw [hmem.2] at this
          cases this
        · intro k hk
          rw [harg] at hk
          injection hk with h'
          cases h'
      · have harg : m.arguments args kwargs = .error (.unknownArgument k0) := by
          rw [harg2, hremc]
          simp [hb]
        refine ⟨?_, ?_, ?_, ?_⟩
        · constructor
          · intro hk
            rw [harg] at hk
            injection hk with h'
            cases h'
          · intro hk
            omega
        · constructor
          · rintro ⟨res, hres⟩
            rw [harg] at hres
            cases hres
          · intro hrhs
            exact absurd hrhs hnotRhs
        · intro k hk
          rw [harg] at hk
          injection hk with h'
          cases h'
        · intro k hk
          rw [harg] at hk
          injection hk with h'
          injection h' with h''
          subst h''
          refine ⟨⟨v0, hmem.1⟩, ?_⟩
          intro f hf hn
          exact hb ((hbyname k0).mpr ⟨f, hf, hn⟩)

theorem C2_arguments_errors_witness :
    SpecContainer.ofList [fldA, fldB] = .ok basicM.fields ∧
    (List.map Prod.fst [("alpha", Value.atom 0)]).Nodup ∧
    (∀ f ∈ [fldA, fldB], (DEFAULTS f.type).isSome) ∧
    ((∃ v, ("alpha", v) ∈ [("alpha", Value.atom 0)]) ∧
      ∃ j f, [fldA, fldB].get? j = some f ∧ f.name = "alpha" ∧
        j < [Value.vInt 7].length) := by
  have h := C2_arguments_errors [fldA, fldB] basicM rfl [Value.vInt 7]
    [("alpha", Value.atom 0)] (by simp) (by decide)
  exact ⟨rfl, by simp, by decide, h.2.2.1 "alpha" rfl⟩

/-- Digit-string evaluation with accumulator, the core of the embedding of
    python `int(...)` on attribute text. -/
def digitsValAux : List Char → Nat → Option Nat
  | [], acc => some acc
  | c :: cs, acc => if c.isDigit then digitsValAux cs (acc * 10 + (c.toNat - 48)) else none

/-- Value of a non-empty all-digit character list, `none` otherwise. -/
def digitsVal : List Char → Option Nat
  | [] => none
  | cs => digitsValAux cs 0

/-- Whitespace stripping on both ends, as python `int` performs before
    parsing. -/
def stripSpaces (cs : List Char) : List Char :=
  ((cs.dropWhile (fun c => c.isWhitespace)).reverse.dropWhile (fun c => c.isWhitespace)).reverse

/-- Embedding of python `int(s)` on strings: optional sign followed by
    digits, surrounding whitespace ignored; `none` models the `ValueError`
    raise. -/
def pyInt (s : String) : Option Int :=
  match stripSpaces s.toList with
  | '-' :: ds => (digitsVal ds).map (fun n => -(n : Int))
  | '+' :: ds => (digitsVal ds).map (fun n => (n : Int))
  | ds => (digitsVal ds).map (fun n => (n : Int))

/-- Embedding of the `Node` class of `xmlutil.py`: tag name, attribute
    dict, optional character data and ordered child elements.  The parent
    back reference is dropped (a node's position among its parent's
    children is recovered by enumeration where `Node.index` is used). -/
inductive XNode where
  | mk (name : String) (attrs : List (String × String)) (text : Option String)
      (children : List XNode)

def XNode.name : XNode → String
  | .mk n _ _ _ => n

def XNode.attrs : XNode → List (String × String)
  | .mk _ a _ _ => a

def XNode.text : XNode → Option String
  | .mk _ _ t _ => t

def XNode.children : XNode → List XNode
  | .mk _ _ _ c => c

/-- Result of `Node.__getitem__` on a string key: an attribute's text for a
    `"@"`-prefixed key, otherwise the list of child elements carrying the
    tag name. -/
inductive GetResult where
  | attrVal (s : String)
  | nodes (l : List XNode)

/-- Embedding of `Node.get`: `none` exactly when `__getitem__` raises
    (which happens only for a missing attribute; a child-name key always
    yields a list, possibly empty). -/
def XNode.getOpt (n : XNode) (key : String) : Option GetResult :=
  match key.toList with
  | '@' :: rest => (dlookup n.attrs (String.mk rest)).map GetResult.attrVal
  | _ => some (.nodes (n.children.filter (fun c => decide (c.name = key))))

/-- Embedding of `Node.get_bool`: the default when `get` yields `None`,
    otherwise `bool(int(v))`; `none` models the raise python performs when
    the coereced value is not an integer-parsable string (in particular the
    `TypeError` reached for any child-element key, whose `get` result is a
    list). -/
def XNode.get_bool (n : XNode) (key : String) (dflt : Bool) : Option Bool :=
  match n.getOpt key with
  | none => some dflt
  | some (.attrVal s) => (pyInt s).map (fun i => decide (i ≠ 0))
  | some (.nodes _) => none

/-- C9 counterexample: for a child-element key (no `"@"` prefix) that is
    absent from the node, `get_bool` does not fall back to the default:
    `get` returns the (empty) child list, which is not `None`, and
    `bool(int([]))` raises `TypeError`, modelled by `none` — refuting the
    claim's "for every key" reading at key `"content"` with default `true`. -/
theorem C9_get_bool_counterexample :
    XNode.get_bool (XNode.mk "method" [] none []) "content" true = none ∧
    ¬ XNode.get_bool (XNode.mk "method" [] none []) "content" true = some true := by
  constructor
  · rfl
  · intro h
    cases h

/-- C9 (amended to attribute keys, the shape `get_bool` is actually defined
    for): for every node and attribute key, `get_bool` returns the default
    when the attribute is absent, `false` when its text is `"0"` and `true`
    when its text is `"1"`. -/
theorem C9_get_bool_attr (n : XNode) (a : String) (dflt : Bool) :
    (dlookup n.attrs a = none → n.get_bool ("@" ++ a) dflt = some dflt) ∧
    (dlookup n.attrs a = some "0" → n.get_bool ("@" ++ a) dflt = some false) ∧
    (dlookup n.attrs a = some "1" → n.get_bool ("@" ++ a) dflt = some true) := by
  have hkey : ("@" ++ a).toList = '@' :: a.toList := by
    show ("@" ++ a).data = '@' :: a.data
    rw [String.data_append]
    rfl
  have hmk : String.mk a.toList = a := by
    cases a
    rfl
  have hget : n.getOpt ("@" ++ a) = (dlookup n.attrs a).map GetResult.attrVal := by
    unfold XNode.getOpt
    rw [hkey]
    show (dlookup n.attrs (String.mk a.toList)).map GetResult.attrVal = _
    rw [hmk]
  refine ⟨?_, ?_, ?_⟩ <;> intro hl <;> unfold XNode.get_bool <;> rw [hget, hl] <;> rfl

theorem C9_get_bool_attr_witness :
    (dlookup (XNode.mk "method" [("content", "1")] none []).attrs "synchronous" = none ∧
     XNode.get_bool (XNode.mk "method" [("content", "1")] none [])
       ("@" ++ "synchronous") false = some false) ∧
    (dlookup (XNode.mk "method" [("content", "1")] none []).attrs "content" = some "1" ∧
     XNode.get_bool (XNode.mk "method" [("content", "1")] none [])
       ("@" ++ "content") false = some true) := by
  have h1 := C9_get_bool_attr (XNode.mk "method" [("content", "1")] none []) "synchronous" false
  have h2 := C9_get_bool_attr (XNode.mk "method" [("content", "1")] none []) "content" false
  exact ⟨⟨rfl, h1.1 rfl⟩, ⟨rfl, h2.2.2 rfl⟩⟩

/-- One pass of the alias-resolution `while` loop body in `load_fields`:
    replace the type by its alias when the map binds it to a different
    name. -/
def aliasStep (domains : List (String × String)) (t : String) : String :=
  match dlookup domains t with
  | some u => if u ≠ t then u else t
  | none => t

/-- The `while` guard of the alias-resolution loop:
    `domains.has_key(type) and domains[type] != type`. -/
def aliasGuard (domains : List (String × String)) (t : String) : Bool :=
  match dlookup domains t with
  | some u => decide (u ≠ t)
  | none => false

/-- The value held by the loop variable after `n` iterations of the loop
    body. -/
def aliasIter (domains : List (String × String)) (t : String) : Nat → String
  | 0 => t
  | n + 1 => aliasIter domains (aliasStep domains t) n

/-- Termination of the source loop on the given map and start type: after
    some number of iterations the guard goes false. -/
def ResolveTerminates (domains : List (String × String)) (t : String) : Prop :=
  ∃ n, aliasGuard domains (aliasIter domains t n) = false

/-- Fuelled embedding of the alias-resolution loop; `none` marks fuel
    exhaustion. -/
def resolveTypeFuel (domains : List (String × String)) : Nat → String → Option String
  | 0, _ => none
  | n + 1, t =>
    match dlookup domains t with
    | some u => if u ≠ t then resolveTypeFuel domains n u else some t
    | none => some t

/-- The alias-resolution loop run with enough fuel to cover every
    terminating execution (one more step than the map has entries; by the
    pigeonhole argument of `C5_alias_resolution` a loop still running after
    that many steps never stops, which `none` records). -/
def resolve_type (domains : List (String × String)) (t : String) : Option String :=
  resolveTypeFuel domains (domains.length + 1) t

theorem aliasIter_succ (domains : List (String × String)) (t : String) (n : Nat) :
    aliasIter domains t (n + 1) = aliasIter domains (aliasStep domains t) n := rfl

theorem aliasStep_of_guard (domains : List (String × String)) {t u : String}
    (hu : dlookup domains t = some u) (hne : u ≠ t) : aliasStep domains t = u := by
  unfold aliasStep
  rw [hu]
  show (if u ≠ t then u else t) = u
  rw [if_pos hne]

theorem resolveTypeFuel_sound (domains : List (String × String)) :
    ∀ (fuel : Nat) (t r : String), resolveTypeFuel domains fuel t = some r →
      (dlookup domains r = none ∨ dlookup domains r = some r) ∧
      ∃ n, aliasIter domains t n = r := by
  intro fuel
  induction fuel with
  | zero => intro t r h; cases h
  | succ n ih =>
    intro t r h
    unfold resolveTypeFuel at h
    cases hd : dlookup domains t with
    | none =>
      rw [hd] at h
      injection h with h
      subst h
      exact ⟨Or.inl hd, 0, rfl⟩
    | some u =>
      rw [hd] at h
      have h' : (if u ≠ t then resolveTypeFuel domains n u else some t) = some r := h
      by_cases hne : u ≠ t
      · rw [if_pos hne] at h'
        obtain ⟨hfix, m, hm⟩ := ih u r h'
        refine ⟨hfix, m + 1, ?_⟩
        rw [aliasIter_succ, aliasStep_of_guard domains hd hne]
        exact hm
      · rw [if_neg hne] at h'
        injection h' with h'
        subst h'
        push_neg at hne
        subst hne
        exact ⟨Or.inr hd, 0, rfl⟩

theorem resolveTypeFuel_reaches (domains : List (String × String)) :
    ∀ (n : Nat) (t : String),
      (∀ m, m < n → aliasGuard domains (aliasIter domains t m) = true) →
      aliasGuard domains (aliasIter domains t n) = false →
      ∀ fuel, n < fuel → resolveTypeFuel domains fuel t = some (aliasIter domains t n) := by
  intro n
  induction n with
  | zero =>
    intro t _ hfalse fuel hfuel
    cases fuel with
    | zero => omega
    | succ f =>
      unfold resolveTypeFuel
      unfold aliasIter at hfalse
      unfold aliasGuard at hfalse
      cases hd : dlookup domains t with
      | none =>
        rfl
      | some u =>
        rw [hd] at hfalse
        have hfalse' : decide (u ≠ t) = false := hfalse
        have hut : u = t := by simpa using hfalse'
        subst hut
        show (if u ≠ u then resolveTypeFuel domains f u else some u) =
          some (aliasIter domains u 0)
        rw [if_neg (by simp)]
        rfl
  | succ n ih =>
    intro t hall hfalse fuel hfuel
    have hg0 : aliasGuard domains t = true := hall 0 (by omega)
    unfold aliasGuard at hg0
    cases hd : dlookup domains t with
    | none => rw [hd] at hg0; cases hg0
    | some u =>
      rw [hd] at hg0
      have hne : u ≠ t := by simpa using hg0
      cases fuel with
      | zero => omega
      | succ f =>
        unfold resolveTypeFuel
        rw [hd]
        show (if u ≠ t then resolveTypeFuel domains f u else some t) =
          some (aliasIter domains t (n + 1))
        rw [if_pos hne]
        have hstep : aliasStep domains t = u := aliasStep_of_guard domains hd hne
        have hiter : ∀ m, aliasIter domains t (m + 1) = aliasIter domains u m := by
          intro m
          rw [aliasIter_succ, hstep]
        have hall' : ∀ m, m < n → aliasGuard domains (aliasIter domains u m) = true := by
          intro m hm
          rw [← hiter m]
          exact hall (m + 1) (by omega)
        have hfalse' : aliasGuard domains (aliasIter domains u n) = false := by
          rw [← hiter n]
          exact hfalse
        rw [ih u hall' hfalse' f (by omega)]
        rw [hiter n]

theorem guard_true_mem_keys (domains : List (String × String)) (t : String)
    (h : aliasGuard domains t = true) : t ∈ domains.map Prod.fst := by
  unfold aliasGuard at h
  cases hd : dlookup domains t with
  | none => rw [hd] at h; cases h
  | some u =>
    exact List.mem_map_of_mem Prod.fst (dlookup_mem hd)

/-- C5 counterexample: on the two-entry cyclic alias map a ↦ b, b ↦ a the
    resolution loop started at "a" never makes its guard false, so the
    source `while` loop runs forever — the claim's "for every Domain alias
    map ... the loop terminates" is false. -/
theorem C5_alias_cycle_diverges :
    ¬ ResolveTerminates [("a", "b"), ("b", "a")] "a" := by
  have hiter : ∀ (n : Nat) (t : String), t = "a" ∨ t = "b" →
      aliasIter [("a", "b"), ("b", "a")] t n = "a" ∨
      aliasIter [("a", "b"), ("b", "a")] t n = "b" := by
    intro n
    induction n with
    | zero => intro t ht; exact ht
    | succ m ih =>
      intro t ht
      rw [aliasIter_succ]
      rcases ht with rfl | rfl
      · exact ih _ (Or.inr (by rfl))
      · exact ih _ (Or.inl (by rfl))
  rintro ⟨n, hn⟩
  rcases hiter n "a" (Or.inl rfl) with h | h <;> rw [h] at hn <;> exact absurd hn (by decide)

/-- C5 (amended): the alias-resolution loop terminates provided the
    substitution chain from the declared type does not revisit a name while
    the loop is still running — whenever the guard still holds at the `i`-th
    chain value, no other chain value within the first `|domains| + 1` equals
    it (once the chain reaches its fixed point the guard is false there, so
    the repetitions after stabilisation are allowed; the condition is exactly
    "no alias cycle is reachable from the type"). The loop then stops within
    `|domains| + 1` iterations, and the resulting type is the fixed point of
    the chain — a name that is absent from the map or maps to itself. -/
theorem C5_alias_resolution (domains : List (String × String)) (t : String)
    (hnorev : ∀ i, i < domains.length + 1 → ∀ j, j < domains.length + 1 → i ≠ j →
      aliasGuard domains (aliasIter domains t i) = true →
      aliasIter domains t i ≠ aliasIter domains t j) :
    ResolveTerminates domains t ∧
    ∃ r, resolve_type domains t = some r ∧
      (∃ n, aliasIter domains t n = r) ∧
      (dlookup domains r = none ∨ dlookup domains r = some r) := by
  have hex : ∃ n, n ≤ domains.length ∧
      aliasGuard domains (aliasIter domains t n) = false := by
    by_contra hcon
    push_neg at hcon
    have hall : ∀ n, n ≤ domains.length →
        aliasGuard domains (aliasIter domains t n) = true := by
      intro n hn
      have hne := hcon n hn
      cases hres : aliasGuard domains (aliasIter domains t n)
      · exact absurd hres hne
      · rfl
    have hsub : ∀ x ∈ (List.range (domains.length + 1)).map (aliasIter domains t),
        x ∈ domains.map Prod.fst := by
      intro x hx
      rw [List.mem_map] at hx
      obtain ⟨n, hn, rfl⟩ := hx
      rw [List.mem_range] at hn
      exact guard_true_mem_keys _ _ (hall n (by omega))
    have hdist : ((List.range (domains.length + 1)).map (aliasIter domains t)).Nodup := by
      rw [List.nodup_map_iff_inj_on (List.nodup_range _)]
      intro i hi j hj hij
      rw [List.mem_range] at hi hj
      by_contra hne
      exact hnorev i hi j hj hne (hall i (Nat.lt_succ_iff.mp hi)) hij
    have hlen : ((List.range (domains.length + 1)).map (aliasIter domains t)).length
        = domains.length + 1 := by simp
    have hcard1 : ((List.range (domains.length + 1)).map
        (aliasIter domains t)).toFinset.card = domains.length + 1 := by
      rw [List.toFinset_card_of_nodup hdist, hlen]
    have hsub2 : ((List.range (domains.length + 1)).map
        (aliasIter domains t)).toFinset ⊆ (domains.map Prod.fst).toFinset := by
      intro x hx
      rw [List.mem_toFinset] at hx ⊢
      exact hsub x hx
    have hcard2 : (domains.map Prod.fst).toFinset.card ≤ domains.length := by
      calc (domains.map Prod.fst).toFinset.card
          ≤ (domains.map Prod.fst).length := List.toFinset_card_le _
        _ = domains.length := List.length_map _ _
    have := Finset.card_le_card hsub2
    omega
  obtain ⟨n, hnle, hnfalse⟩ := hex
  have hexx : ∃ m, aliasGuard domains (aliasIter domains t m) = false := ⟨n, hnfalse⟩
  have hn₀ : aliasGuard domains (aliasIter domains t (Nat.find hexx)) = false :=
    Nat.find_spec hexx
  have hmin : ∀ m, m < Nat.find hexx →
      aliasGuard domains (aliasIter domains t m) = true := by
    intro m hm
    have hne := Nat.find_min hexx hm
    cases hres : aliasGuard domains (aliasIter domains t m)
    · exact absurd hres hne
    · rfl
  have hn₀le : Nat.find hexx ≤ n := Nat.find_min' hexx hnfalse
  have hres := resolveTypeFuel_reaches domains (Nat.find hexx) t hmin hn₀
    (domains.length + 1) (by omega)
  refine ⟨⟨Nat.find hexx, hn₀⟩, aliasIter domains t (Nat.find hexx), hres,
    ⟨Nat.find hexx, rfl⟩, ?_⟩
  unfold aliasGuard at hn₀
  cases hd : dlookup domains (aliasIter domains t (Nat.find hexx)) with
  | none => exact Or.inl rfl
  | some u =>
    rw [hd] at hn₀
    have h' : decide (u ≠ aliasIter domains t (Nat.find hexx)) = false := hn₀
    have hu : u = aliasIter domains t (Nat.find hexx) := by simpa using h'
    exact Or.inr (by rw [hu])

theorem C5_alias_resolution_witness :
    ((∀ i, i < [("octet2", "octet")].length + 1 →
        ∀ j, j < [("octet2", "octet")].length + 1 → i ≠ j →
        aliasGuard [("octet2", "octet")] (aliasIter [("octet2", "octet")] "octet2" i) = true →
        aliasIter [("octet2", "octet")] "octet2" i ≠ aliasIter [("octet2", "octet")] "octet2" j) ∧
     (ResolveTerminates [("octet2", "octet")] "octet2" ∧
      ∃ r, resolve_type [("octet2", "octet")] "octet2" = some r ∧
        (∃ n, aliasIter [("octet2", "octet")] "octet2" n = r) ∧
        (dlookup [("octet2", "octet")] r = none ∨
          dlookup [("octet2", "octet")] r = some r))) ∧
    ((∀ i, i < [("a", "b"), ("c", "d")].length + 1 →
        ∀ j, j < [("a", "b"), ("c", "d")].length + 1 → i ≠ j →
        aliasGuard [("a", "b"), ("c", "d")]
          (aliasIter [("a", "b"), ("c", "d")] "a" i) = true →
        aliasIter [("a", "b"), ("c", "d")] "a" i ≠
          aliasIter [("a", "b"), ("c", "d")] "a" j) ∧
     (ResolveTerminates [("a", "b"), ("c", "d")] "a" ∧
      ∃ r, resolve_type [("a", "b"), ("c", "d")] "a" = some r ∧
        (∃ n, aliasIter [("a", "b"), ("c", "d")] "a" n = r) ∧
        (dlookup [("a", "b"), ("c", "d")] r = none ∨
          dlookup [("a", "b"), ("c", "d")] r = some r))) ∧
    ((∀ i, i < [("x", "y")].length + 1 →
        ∀ j, j < [("x", "y")].length + 1 → i ≠ j →
        aliasGuard [("x", "y")] (aliasIter [("x", "y")] "z" i) = true →
        aliasIter [("x", "y")] "z" i ≠ aliasIter [("x", "y")] "z" j) ∧
     (ResolveTerminates [("x", "y")] "z" ∧
      ∃ r, resolve_type [("x", "y")] "z" = some r ∧
        (∃ n, aliasIter [("x", "y")] "z" n = r) ∧
        (dlookup [("x", "y")] r = none ∨ dlookup [("x", "y")] r = some r))) :=
  ⟨⟨by decide, C5_alias_resolution [("octet2", "octet")] "octet2" (by decide)⟩,
   ⟨by decide, C5_alias_resolution [("a", "b"), ("c", "d")] "a" (by decide)⟩,
   ⟨by decide, C5_alias_resolution [("x", "y")] "z" (by decide)⟩⟩

/-- Character-level form of the two `REPLACE` substitutions of
    `pythonize` (single-character replacements commute, so applying them
    per character equals the two sequential `str.replace` calls). -/
def pythonizeChar (c : Char) : Char :=
  if c = ' ' ∨ c = '-' then '_' else c

/-- Embedding of `pythonize`: space and hyphen become underscore, then the
    `KEYWORDS` remapping of `global` and `return`. -/
def pythonize (name : String) : String :=
  let n := String.mk (name.toList.map pythonizeChar)
  if n = "global" then "global_" else if n = "return" then "return_" else n

/-- Embedding of the `Class` class from `spec.py` (named `Klass` because
    `class` is reserved in Lean); the `spec` back reference is dropped. -/
structure Klass where
  name : String
  id : Int
  handler : String
  fields : SpecContainer Field
  methods : SpecContainer Method
  docs : List (Option String)
deriving DecidableEq

instance : HasIdentity Klass := ⟨Klass.name, Klass.id⟩

/-- Embedding of the `Constant` class from `spec.py`; the `spec` back
    reference is dropped. -/
structure Constant where
  name : String
  id : Int
  klass : Option String
  docs : List (Option String)
deriving DecidableEq

instance : HasIdentity Constant := ⟨Constant.name, Constant.id⟩

/-- Embedding of the `Spec` class: version numbers plus the two top-level
    registries.  The source filename, the derived `methods` lookup cache
    and the dynamically generated module/class objects of `post_load` are
    presentation-side state not modelled here. -/
structure Spec where
  major : Int
  minor : Int
  constants : SpecContainer Constant
  classes : SpecContainer Klass
deriving DecidableEq

/-- Errors surfaced by `load`: `malformed` for `KeyError`/`ValueError` on
    attribute access and `int(...)`, the two duplicate-identity raises of
    `SpecContainer.add`, `notFound` for a failed by-name lookup, and
    `nonterminating` marking inputs on which the alias-resolution `while`
    loop of the source never returns. -/
inductive LoadErr where
  | malformed (what : String)
  | duplicateName
  | duplicateId
  | notFound (what : String)
  | nonterminating (ty : String)
deriving DecidableEq

def LoadErr.ofDup : DupErr → LoadErr
  | .duplicateName => .duplicateName
  | .duplicateId => .duplicateId

def mapErr {ε ε' σ : Type} (f : ε → ε') : Except ε σ → Except ε' σ
  | .error e => .error (f e)
  | .ok s => .ok s

/-- Monadic map over a list in `Except`, written out so each equation is
    definitional (the shape of a python list comprehension whose body may
    raise). -/
def mapE {α β ε : Type} (f : α → Except ε β) : List α → Except ε (List β)
  | [] => .ok []
  | x :: xs =>
    match f x with
    | .error e => .error e
    | .ok y =>
      match mapE f xs with
      | .error e => .error e
      | .ok ys => .ok (y :: ys)

/-- Attribute probe `nd.attrs[a]` as an option. -/
def attrOf (n : XNode) (a : String) : Option String :=
  dlookup n.attrs a

/-- Child elements with the given tag name, `nd[name]` for a non-attribute
    key. -/
def childrenNamed (n : XNode) (nm : String) : List XNode :=
  n.children.filter (fun c => decide (c.name = nm))

/-- The `field` children of a node paired with their `Node.index()` value,
    the position among all child elements of the parent. -/
def fieldNodesWithIndex (nd : XNode) : List (Nat × XNode) :=
  nd.children.enum.filter (fun pr => decide (pr.2.name = "field"))

/-- Embedding of `get_docs`: the text of every `doc` child. -/
def getDocs (nd : XNode) : List (Option String) :=
  (childrenNamed nd "doc").map XNode.text

/-- Required attribute access `nd["@a"]`: `KeyError` (Malformed) when
    absent. -/
def reqAttr (nd : XNode) (a : String) : Except LoadErr String :=
  match attrOf nd a with
  | some v => .ok v
  | none => .error (.malformed a)

/-- `int(s)` with `ValueError` surfaced as Malformed. -/
def pyIntE (s : String) : Except LoadErr Int :=
  match pyInt s with
  | some i => .ok i
  | none => .error (.malformed s)

/-- `nd.get_bool(key, dflt)` with the raise surfaced as Malformed. -/
def getBoolE (nd : XNode) (key : String) (dflt : Bool) : Except LoadErr Bool :=
  match nd.get_bool key dflt with
  | some b => .ok b
  | none => .error (.malformed key)

/-- Value-level image of a python in-place mutation: the single object
    registered under `nm` is aliased from the item list and all three
    dicts, so updating it through any alias updates every view at once.
    Every updater passed here preserves `name` and `id`, keeping the dict
    keys consistent. -/
def SpecContainer.modifyByName {α : Type} [DecidableEq α] [HasIdentity α]
    (c : SpecContainer α) (nm : String) (f : α → α) : SpecContainer α :=
  { items := c.items.map (fun x => if nameOf x = nm then f x else x),
    byname := c.byname.map (fun p => (p.1, if nameOf p.2 = nm then f p.2 else p.2)),
    byid := c.byid.map (fun p => (p.1, if nameOf p.2 = nm then f p.2 else p.2)),
    indexes := c.indexes.map (fun p => (if nameOf p.1 = nm then f p.1 else p.1, p.2)) }

/-- The body of the `for f_nd in nd["field"]` loop of `load_fields`: take
    the declared `@domain` (falling back to `@type`), resolve it through
    the alias map to a fixed point, and add a `Field` named by the
    pythonized `@name` with the node's child position as id. -/
def loadFieldNd (domains : List (String × String)) (acc : SpecContainer Field)
    (pr : Nat × XNode) : Except LoadErr (SpecContainer Field) :=
  match (match attrOf pr.2 "domain" with
         | some t => Except.ok t
         | none => reqAttr pr.2 "type") with
  | .error e => .error e
  | .ok tRaw =>
    match resolve_type domains tRaw with
    | none => .error (.nonterminating tRaw)
    | some ty =>
      match reqAttr pr.2 "name" with
      | .error e => .error e
      | .ok nm =>
        mapErr LoadErr.ofDup
          (acc.add ⟨pythonize nm, (pr.1 : Int), ty, getDocs pr.2⟩)

/-- Embedding of `load_fields`: run the field loop over every `field`
    child paired with its `Node.index()` position. -/
def load_fields (nd : XNode) (l : SpecContainer Field)
    (domains : List (String × String)) : Except LoadErr (SpecContainer Field) :=
  foldE (loadFieldNd domains) l (fieldNodesWithIndex nd)

/-- The body of the `for m_nd in c_nd["method"]` loop of `load`: in the
    primary document build and register a fresh `Method` (collecting it in
    the `added_methods` list) and load its fields; in an overlay resolve
    the existing method by name and extend its fields. -/
def loadMethodTag (domains : List (String × String)) (isPrimary : Bool)
    (acc : Klass × List Method) (m_nd : XNode) : Except LoadErr (Klass × List Method) :=
  match reqAttr m_nd "name" with
  | .error e => .error e
  | .ok rawName =>
    if isPrimary then
      match reqAttr m_nd "index" with
      | .error e => .error e
      | .ok idxStr =>
        match pyIntE idxStr with
        | .error e => .error e
        | .ok mid =>
          match getBoolE m_nd "@content" false with
          | .error e => .error e
          | .ok content =>
            match mapE (fun nd =>
                match reqAttr nd "name" with
                | .error e => .error e
                | .ok rn => .ok (pythonize rn)) (childrenNamed m_nd "response") with
            | .error e => .error e
            | .ok resps =>
              match getBoolE m_nd "@synchronous" false with
              | .error e => .error e
              | .ok synch =>
                match mapErr LoadErr.ofDup (acc.1.methods.add
                    ⟨acc.1.name, pythonize rawName, mid, content, resps, synch,
                     m_nd.text, getDocs m_nd, SpecContainer.empty, false⟩) with
                | .error e => .error e
                | .ok ms =>
                  match load_fields m_nd SpecContainer.empty domains with
                  | .error e => .error e
                  | .ok mfields =>
                    .ok ({ acc.1 with methods := ms.modifyByName (pythonize rawName) (fun m => { m with fields := mfields }) },
                         acc.2 ++ [⟨acc.1.name, pythonize rawName, mid, content, resps, synch, m_nd.text, getDocs m_nd, SpecContainer.empty, false⟩])
    else
      match dlookup acc.1.methods.byname (pythonize rawName) with
      | none => .error (.notFound (pythonize rawName))
      | some meth =>
        match load_fields m_nd meth.fields domains with
        | .error e => .error e
        | .ok mfields =>
          .ok ({ acc.1 with methods := acc.1.methods.modifyByName (pythonize rawName) (fun m => { m with fields := mfields }) }, acc.2)

/-- The response-resolution phase run after all methods of a class are
    processed for one document: for each newly added method look every raw
    response name up in the class's method registry (`KeyError`/NotFound on
    a miss) and set the referenced method's is-response flag. -/
def resolveResponses (added : List Method) (ms : SpecContainer Method) :
    Except LoadErr (SpecContainer Method) :=
  foldE
    (fun ms2 m =>
      match mapE (fun r =>
          match dlookup ms2.byname r with
          | some _ => Except.ok r
          | none => Except.error (LoadErr.notFound r)) m.responses with
      | .error e => .error e
      | .ok _ =>
        .ok (m.responses.foldl
          (fun ms3 r => ms3.modifyByName r (fun mm => { mm with response := true })) ms2))
    ms added

/-- The per-class body of `load`: load class-level fields, process every
    `method` child, then resolve the responses of the methods added in
    this document. -/
def loadClassBody (klass : Klass) (domains : List (String × String)) (c_nd : XNode)
    (isPrimary : Bool) : Except LoadErr Klass :=
  match load_fields c_nd klass.fields domains with
  | .error e => .error e
  | .ok cfields =>
    match foldE (loadMethodTag domains isPrimary) ({ klass with fields := cfields }, [])
        (childrenNamed c_nd "method") with
    | .error e => .error e
    | .ok pr =>
      match resolveResponses pr.2 pr.1.methods with
      | .error e => .error e
      | .ok methods2 => .ok { pr.1 with methods := methods2 }

/-- The body of the `for c_nd in root["class"]` loop of `load`: in the
    primary document create and register a fresh `Class`, in an overlay
    resolve the existing one by name (NotFound on a miss), then run the
    class body and write the mutated class back through its registry
    aliases. -/
def loadClassTag (domains : List (String × String)) (isPrimary : Bool)
    (sp : Spec) (c_nd : XNode) : Except LoadErr Spec :=
  match reqAttr c_nd "name" with
  | .error e => .error e
  | .ok rawName =>
    if isPrimary then
      match reqAttr c_nd "index" with
      | .error e => .error e
      | .ok idxStr =>
        match pyIntE idxStr with
        | .error e => .error e
        | .ok kid =>
          match reqAttr c_nd "handler" with
          | .error e => .error e
          | .ok handler =>
            match mapErr LoadErr.ofDup (sp.classes.add
                ⟨pythonize rawName, kid, handler, SpecContainer.empty,
                 SpecContainer.empty, getDocs c_nd⟩) with
            | .error e => .error e
            | .ok classes1 =>
              match loadClassBody
                  ⟨pythonize rawName, kid, handler, SpecContainer.empty,
                   SpecContainer.empty, getDocs c_nd⟩ domains c_nd true with
              | .error e => .error e
              | .ok klass1 =>
                .ok { sp with classes :=
                  classes1.modifyByName (pythonize rawName) (fun _ => klass1) }
    else
      match dlookup sp.classes.byname (pythonize rawName) with
      | none => .error (.notFound (pythonize rawName))
      | some klass0 =>
        match loadClassBody klass0 domains c_nd false with
        | .error e => .error e
        | .ok klass1 =>
          .ok { sp with classes :=
            sp.classes.modifyByName (pythonize rawName) (fun _ => klass1) }

/-- The body of the `for nd in root["constant"]` loop of `load`. -/
def loadConstantTag (sp : Spec) (nd : XNode) : Except LoadErr Spec :=
  match reqAttr nd "name" with
  | .error e => .error e
  | .ok nm =>
    match reqAttr nd "value" with
    | .error e => .error e
    | .ok vs =>
      match pyIntE vs with
      | .error e => .error e
      | .ok v =>
        match mapErr LoadErr.ofDup (sp.constants.add
            ⟨pythonize nm, v, attrOf nd "class", getDocs nd⟩) with
        | .error e => .error e
        | .ok cs => .ok { sp with constants := cs }

/-- The fresh, document-scoped alias map built from the `domain` children
    of a root (prepended bindings give the dict's last-write-wins
    behaviour under `dlookup`). -/
def loadDomains (root : XNode) : Except LoadErr (List (String × String)) :=
  foldE
    (fun dom nd =>
      match reqAttr nd "name" with
      | .error e => .error e
      | .ok dn =>
        match reqAttr nd "type" with
        | .error e => .error e
        | .ok dt => .ok ((dn, dt) :: dom))
    [] (childrenNamed root "domain")

/-- One pass of the `for root in [spec_root] + ...` loop of `load`:
    constants, then the document-scoped domain map, then the classes. -/
def loadRoot (isPrimary : Bool) (sp : Spec) (root : XNode) : Except LoadErr Spec :=
  match foldE loadConstantTag sp (childrenNamed root "constant") with
  | .error e => .error e
  | .ok sp1 =>
    match loadDomains root with
    | .error e => .error e
    | .ok domains =>
      foldE (loadClassTag domains isPrimary) sp1 (childrenNamed root "class")

/-- Embedding of the `load` entry point of `spec.py` on already-parsed
    document trees: extract the `amqp` root of the primary, read the
    version attributes, extract every erratum's root, then process the
    primary followed by the errata in order.  The `post_load` step
    (dynamic module/class generation) is presentation-side and not
    modelled. -/
def load (specdoc : XNode) (errata : List XNode) : Except LoadErr Spec :=
  match childrenNamed specdoc "amqp" with
  | [] => .error (.malformed "amqp")
  | spec_root :: _ =>
    match reqAttr spec_root "major" with
    | .error e => .error e
    | .ok ms =>
      match pyIntE ms with
      | .error e => .error e
      | .ok major =>
        match reqAttr spec_root "minor" with
        | .error e => .error e
        | .ok mns =>
          match pyIntE mns with
          | .error e => .error e
          | .ok minor =>
            match mapE (fun d =>
                match childrenNamed d "amqp" with
                | [] => Except.error (LoadErr.malformed "amqp")
                | r :: _ => Except.ok r) errata with
            | .error e => .error e
            | .ok roots =>
              match loadRoot true ⟨major, minor, SpecContainer.empty, SpecContainer.empty⟩
                  spec_root with
              | .error e => .error e
              | .ok sp => foldE (loadRoot false) sp roots

/-- A `doc` element, used as padding among a method's children. -/
def docNode : XNode := .mk "doc" [] none []

def fldQueueNd : XNode := .mk "field" [("name", "queue"), ("type", "shortstr")] none []

def respGetOkNd : XNode := .mk "response" [("name", "get_ok")] none []

/-- A method declaring a response that refers to a sibling declared later. -/
def methGetNd : XNode :=
  .mk "method" [("name", "get"), ("index", "70")] none [respGetOkNd, fldQueueNd]

def fldTagNd : XNode := .mk "field" [("name", "delivery_tag"), ("type", "longlong")] none []

def methGetOkNd : XNode := .mk "method" [("name", "get_ok"), ("index", "71")] none [fldTagNd]

def classBasicNd : XNode :=
  .mk "class" [("name", "basic"), ("index", "60"), ("handler", "channel")] none
    [methGetNd, methGetOkNd]

def amqpRootNd : XNode := .mk "amqp" [("major", "0"), ("minor", "9")] none [classBasicNd]

/-- A concrete primary document: one class with two methods, the first
    responding with the second. -/
def primaryDoc : XNode := .mk "root" [] none [amqpRootNd]

def ovNewMethodNd : XNode := .mk "method" [("name", "reject"), ("index", "90")] none []

def ovClassNd : XNode := .mk "class" [("name", "basic")] none [ovNewMethodNd]

def ovRootNd : XNode := .mk "amqp" [] none [ovClassNd]

/-- An overlay declaring a method name unknown to the primary's class. -/
def overlayNewMethodDoc : XNode := .mk "root" [] none [ovRootNd]

def fldRedeliveredNd : XNode := .mk "field" [("name", "redelivered"), ("type", "bit")] none []

/-- An errata method tag whose single field sits at child position 3. -/
def errMethGetOkNd : XNode :=
  .mk "method" [("name", "get_ok")] none [docNode, docNode, docNode, fldRedeliveredNd]

def errClassNd : XNode := .mk "class" [("name", "basic")] none [errMethGetOkNd]

def errRootNd : XNode := .mk "amqp" [] none [errClassNd]

/-- An errata document adding one field to the existing method `get_ok`. -/
def errataFieldDoc : XNode := .mk "root" [] none [errRootNd]

theorem mapErr_ok {ε ε' σ : Type} (f : ε → ε') {e : Except ε σ} {s : σ} :
    mapErr f e = .ok s ↔ e = .ok s := by
  cases e <;> simp [mapErr]

theorem loadFieldNd_extends (domains : List (String × String))
    (acc : SpecContainer Field) (pr : Nat × XNode) (acc' : SpecContainer Field)
    (h : loadFieldNd domains acc pr = .ok acc') :
    ∃ nfs, acc'.items = acc.items ++ nfs := by
  unfold loadFieldNd at h
  split at h
  · cases h
  · split at h
    · cases h
    · split at h
      · cases h
      · rw [mapErr_ok] at h
        obtain ⟨_, _, hit, _⟩ := add_ok_components h
        exact ⟨_, hit⟩

theorem foldE_items_extends {α : Type}
    (f : SpecContainer Field → α → Except LoadErr (SpecContainer Field))
    (hf : ∀ acc x acc', f acc x = .ok acc' → ∃ nfs, acc'.items = acc.items ++ nfs) :
    ∀ (l : List α) (s s' : SpecContainer Field),
      foldE f s l = .ok s' → ∃ nfs, s'.items = s.items ++ nfs := by
  intro l
  induction l with
  | nil =>
    intro s s' h
    rw [foldE_nil] at h
    injection h with h
    subst h
    exact ⟨[], by simp⟩
  | cons x xs ih =>
    intro s s' h
    rw [foldE_cons] at h
    cases hf1 : f s x with
    | error e => rw [hf1] at h; cases h
    | ok s1 =>
      rw [hf1] at h
      obtain ⟨nf1, h1⟩ := hf s x s1 hf1
      obtain ⟨nf2, h2⟩ := ih s1 s' h
      exact ⟨nf1 ++ nf2, by rw [h2, h1, List.append_assoc]⟩

/-- C7 counterexample: loading the concrete primary document plus an
    errata document whose method tag carries one new field at child
    position 3 yields, for method `get_ok`, the canonical argument order
    `[delivery_tag, redelivered]`: the errata field (declared index 3,
    stored as its id) sits at position 1, and position 3 does not exist —
    refuting "the new field appears in the canonical argument order at the
    position given by its declared index". -/
theorem C7_errata_position_counterexample :
    (match load primaryDoc [errataFieldDoc] with
     | .ok sp => (dlookup sp.classes.byname "basic").bind
         (fun k => (dlookup k.methods.byname "get_ok").map
           (fun m => (m.fields.items.map (fun f => (f.name, f.id)),
                      m.fields.items.get? 3)))
     | .error _ => none)
    = some ([("delivery_tag", 0), ("redelivered", 3)], none) := by rfl

/-- C7 (amended): a field loaded from an errata document is appended after
    all previously loaded fields — `load_fields` only ever appends, so
    every primary-document field keeps its position and value and each new
    field's position is the number of fields loaded before it, regardless
    of its declared index (which is stored as the `Field` id); witnessed on
    the concrete errata scenario, where the new field of declared index 3
    ends up at position 2 of `regAB`'s extension. -/
theorem C7_errata_field_appended :
    (∀ (nd : XNode) (l : SpecContainer Field) (domains : List (String × String))
        (l' : SpecContainer Field),
        load_fields nd l domains = .ok l' →
        ∃ nfs, l'.items = l.items ++ nfs) ∧
    ((match load primaryDoc [errataFieldDoc] with
      | .ok sp => (dlookup sp.classes.byname "basic").bind
          (fun k => (dlookup k.methods.byname "get_ok").map
            (fun m => m.fields.items.map (fun f => (f.name, f.id))))
      | .error _ => none) = some [("delivery_tag", 0), ("redelivered", 3)]) := by
  constructor
  · intro nd l domains l' h
    exact foldE_items_extends (loadFieldNd domains) (loadFieldNd_extends domains)
      (fieldNodesWithIndex nd) l l' h
  · rfl

theorem C7_errata_field_appended_witness :
    load_fields errMethGetOkNd regAB [] =
      .ok ⟨[fldA, fldB, ⟨"redelivered", 3, "bit", []⟩],
           [("redelivered", ⟨"redelivered", 3, "bit", []⟩), ("beta", fldB), ("alpha", fldA)],
           [(3, ⟨"redelivered", 3, "bit", []⟩), (2, fldB), (1, fldA)],
           [(⟨"redelivered", 3, "bit", []⟩, 2), (fldB, 1), (fldA, 0)]⟩ ∧
    ∃ nfs, ([fldA, fldB, ⟨"redelivered", 3, "bit", []⟩] : List Field) =
      regAB.items ++ nfs := by
  constructor
  · rfl
  · exact (C7_errata_field_appended.1 errMethGetOkNd regAB []
      ⟨[fldA, fldB, ⟨"redelivered", 3, "bit", []⟩],
       [("redelivered", ⟨"redelivered", 3, "bit", []⟩), ("beta", fldB), ("alpha", fldA)],
       [(3, ⟨"redelivered", 3, "bit", []⟩), (2, fldB), (1, fldA)],
       [(⟨"redelivered", 3, "bit", []⟩, 2), (fldB, 1), (fldA, 0)]⟩ rfl)

theorem loadConstantTag_ok {sp : Spec} {nd : XNode} {sp' : Spec}
    (h : loadConstantTag sp nd = .ok sp') :
    sp'.constants.items.length = sp.constants.items.length + 1 ∧
    sp'.classes = sp.classes := by
  unfold loadConstantTag at h
  split at h
  · cases h
  · split at h
    · cases h
    · split at h
      · cases h
      · split at h
        · cases h
        · next cs hcs =>
          rw [mapErr_ok] at hcs
          obtain ⟨_, _, hit, _⟩ := add_ok_components hcs
          injection h with h
          subst h
          constructor
          · rw [hit]
            simp
          · rfl

theorem foldE_constantTags (nds : List XNode) :
    ∀ (sp sp' : Spec), foldE loadConstantTag sp nds = .ok sp' →
      sp'.constants.items.length = sp.constants.items.length + nds.length ∧
      sp'.classes = sp.classes := by
  induction nds with
  | nil =>
    intro sp sp' h
    rw [foldE_nil] at h
    injection h with h
    subst h
    exact ⟨rfl, rfl⟩
  | cons nd nds ih =>
    intro sp sp' h
    rw [foldE_cons] at h
    cases h1 : loadConstantTag sp nd with
    | error e => rw [h1] at h; cases h
    | ok sp1 =>
      rw [h1] at h
      obtain ⟨hl1, hc1⟩ := loadConstantTag_ok h1
      obtain ⟨hl2, hc2⟩ := ih sp1 sp' h
      refine ⟨?_, hc2.trans hc1⟩
      rw [hl2, hl1, List.length_cons]
      omega

theorem loadClassTag_constants {domains : List (String × String)} {b : Bool}
    {sp : Spec} {c_nd : XNode} {sp' : Spec}
    (h : loadClassTag domains b sp c_nd = .ok sp') :
    sp'.constants = sp.constants := by
  unfold loadClassTag at h
  split at h
  · cases h
  · split at h
    · split at h
      · cases h
      · split at h
        · cases h
        · split at h
          · cases h
          · split at h
            · cases h
            · split at h
              · cases h
              · injection h with h
                subst h
                rfl
    · split at h
      · cases h
      · split at h
        · cases h
        · injection h with h
          subst h
          rfl

theorem foldE_classTags_constants (domains : List (String × String)) (b : Bool)
    (nds : List XNode) :
    ∀ (sp sp' : Spec), foldE (loadClassTag domains b) sp nds = .ok sp' →
      sp'.constants = sp.constants := by
  induction nds with
  | nil =>
    intro sp sp' h
    rw [foldE_nil] at h
    injection h with h
    subst h
    rfl
  | cons nd nds ih =>
    intro sp sp' h
    rw [foldE_cons] at h
    cases h1 : loadClassTag domains b sp nd with
    | error e => rw [h1] at h; cases h
    | ok sp1 =>
      rw [h1] at h
      exact (ih sp1 sp' h).trans (loadClassTag_constants h1)

theorem loadRoot_constants {b : Bool} {sp : Spec} {root : XNode} {sp' : Spec}
    (h : loadRoot b sp root = .ok sp') :
    sp'.constants.items.length =
      sp.constants.items.length + (childrenNamed root "constant").length := by
  unfold loadRoot at h
  split at h
  · cases h
  · next sp1 hsp1 =>
    split at h
    · cases h
    · next domains hdom =>
      have hc := foldE_classTags_constants domains b (childrenNamed root "class") sp1 sp' h
      rw [hc]
      exact (foldE_constantTags (childrenNamed root "constant") sp sp1 hsp1).1

theorem foldE_roots_constants (roots : List XNode) :
    ∀ (sp sp' : Spec), foldE (loadRoot false) sp roots = .ok sp' →
      sp'.constants.items.length = sp.constants.items.length +
        (roots.map (fun r => (childrenNamed r "constant").length)).sum := by
  induction roots with
  | nil =>
    intro sp sp' h
    rw [foldE_nil] at h
    injection h with h
    subst h
    simp
  | cons r roots ih =>
    intro sp sp' h
    rw [foldE_cons] at h
    cases h1 : loadRoot false sp r with
    | error e => rw [h1] at h; cases h
    | ok sp1 =>
      rw [h1] at h
      have := ih sp1 sp' h
      rw [this, loadRoot_constants h1]
      simp
      omega

theorem mapE_forall2 {α β ε : Type} (f : α → Except ε β) :
    ∀ (l : List α) (ys : List β), mapE f l = .ok ys →
      List.Forall₂ (fun x y => f x = .ok y) l ys := by
  intro l
  induction l with
  | nil =>
    intro ys h
    rw [show mapE f [] = .ok [] from rfl] at h
    injection h with h
    subst h
    exact List.Forall₂.nil
  | cons x xs ih =>
    intro ys h
    unfold mapE at h
    cases hfx : f x with
    | error e => rw [hfx] at h; cases h
    | ok y =>
      rw [hfx] at h
      have h' : (match mapE f xs with
                 | .error e => (.error e : Except ε (List β))
                 | .ok ys2 => .ok (y :: ys2)) = .ok ys := h
      cases hrec : mapE f xs with
      | error e => rw [hrec] at h'; cases h'
      | ok ys' =>
        rw [hrec] at h'
        injection h' with h'
        subst h'
        exact List.Forall₂.cons hfx (ih ys' hrec)

/-- Number of constant tags a document contributes: those under its first
    `amqp` root. -/
def constantCount (doc : XNode) : Nat :=
  match childrenNamed doc "amqp" with
  | [] => 0
  | r :: _ => (childrenNamed r "constant").length

theorem forall2_count_eq :
    ∀ (errata roots : List XNode),
      List.Forall₂ (fun d r =>
        (match childrenNamed d "amqp" with
         | [] => Except.error (LoadErr.malformed "amqp")
         | r2 :: _ => Except.ok r2) = .ok r) errata roots →
      roots.map (fun r => (childrenNamed r "constant").length) =
        errata.map constantCount := by
  intro errata
  induction errata with
  | nil =>
    intro roots h
    cases h
    rfl
  | cons d ds ih =>
    intro roots h
    cases h with
    | cons hd htail =>
      rename_i r rs
      simp only [List.map_cons]
      congr 1
      · unfold constantCount
        cases hc : childrenNamed d "amqp" with
        | nil => rw [hc] at hd; cases hd
        | cons r2 t =>
          rw [hc] at hd
          injection hd with hd
          subst hd
          rfl
      · exact ih rs htail

/-- C8: `load` is all-or-nothing.  Every call either yields an error or a
    `Spec` value — the `Except`-threaded embedding of the python raise, by
    which the locally built model is abandoned and never published on
    failure — and every returned `Spec` covers all supplied documents: its
    constant registry holds exactly one entry per constant tag of the
    primary and of every overlay, in order. -/
theorem C8_load_all_or_nothing (specdoc : XNode) (errata : List XNode) :
    ((∃ e, load specdoc errata = .error e) ∨ (∃ sp, load specdoc errata = .ok sp)) ∧
    (∀ sp, load specdoc errata = .ok sp →
        sp.constants.items.length =
          constantCount specdoc + (errata.map constantCount).sum) := by
  constructor
  · cases h : load specdoc errata with
    | error e => exact Or.inl ⟨e, rfl⟩
    | ok sp => exact Or.inr ⟨sp, rfl⟩
  · intro sp h
    unfold load at h
    split at h
    · cases h
    · next spec_root rest hroot =>
      split at h
      · cases h
      · split at h
        · cases h
        · split at h
          · cases h
          · split at h
            · cases h
            · split at h
              · cases h
              · next roots hroots =>
                split at h
                · cases h
                · next sp1 hsp1 =>
                  have hfold := foldE_roots_constants roots sp1 sp h
                  have hprim := loadRoot_constants hsp1
                  have hcc : constantCount specdoc =
                      (childrenNamed spec_root "constant").length := by
                    unfold constantCount
                    rw [hroot]
                  have hmap := forall2_count_eq errata roots (mapE_forall2 _ errata roots hroots)
                  rw [hfold, hprim, hcc, hmap]
                  simp [SpecContainer.empty]

def constFrameMinNd : XNode :=
  .mk "constant" [("name", "frame_min_size"), ("value", "4096")] none []

/-- A primary document carrying one constant and no classes. -/
def constPrimaryDoc : XNode :=
  .mk "root" [] none [.mk "amqp" [("major", "0"), ("minor", "9")] none [constFrameMinNd]]

def cFrameMin : Constant := ⟨"frame_min_size", 4096, none, []⟩

/-- The spec produced by loading `constPrimaryDoc` alone. -/
def spC8 : Spec :=
  ⟨0, 9,
   ⟨[cFrameMin], [("frame_min_size", cFrameMin)], [(4096, cFrameMin)], [(cFrameMin, 0)]⟩,
   SpecContainer.empty⟩

theorem C8_load_all_or_nothing_witness :
    load constPrimaryDoc [] = .ok spC8 ∧
    spC8.constants.items.length =
      constantCount constPrimaryDoc + (([] : List XNode).map constantCount).sum :=
  ⟨rfl, (C8_load_all_or_nothing constPrimaryDoc []).2 spC8 rfl⟩

theorem add_error_of_nameDup {α : Type} [DecidableEq α] [HasIdentity α]
    {c : SpecContainer α} {x : α}
    (hn : (dlookup c.byname (nameOf x)).isSome) :
    c.add x = .error .duplicateName := by
  unfold SpecContainer.add SpecContainer.addState
  rw [if_pos hn]

theorem loadClassTag_overlay_eq (domains : List (String × String)) (sp : Spec)
    (c_nd : XNode) (rawName : String) (hname : reqAttr c_nd "name" = .ok rawName) :
    loadClassTag domains false sp c_nd =
      (match dlookup sp.classes.byname (pythonize rawName) with
       | none => .error (.notFound (pythonize rawName))
       | some klass0 =>
         match loadClassBody klass0 domains c_nd false with
         | .error e => .error e
         | .ok klass1 =>
           .ok { sp with classes :=
             sp.classes.modifyByName (pythonize rawName) (fun _ => klass1) }) := by
  unfold loadClassTag
  simp only [hname]
  rfl

theorem loadMethodTag_overlay_eq (domains : List (String × String))
    (acc : Klass × List Method) (m_nd : XNode) (rawName : String)
    (hname : reqAttr m_nd "name" = .ok rawName) :
    loadMethodTag domains false acc m_nd =
      (match dlookup acc.1.methods.byname (pythonize rawName) with
       | none => .error (.notFound (pythonize rawName))
       | some meth =>
         match load_fields m_nd meth.fields domains with
         | .error e => .error e
         | .ok mfields =>
           .ok ({ acc.1 with methods := acc.1.methods.modifyByName (pythonize rawName) (fun m => { m with fields := mfields }) }, acc.2)) := by
  unfold loadMethodTag
  simp only [hname]
  rfl

theorem loadClassTag_primary_dup (domains : List (String × String)) (sp : Spec)
    (c_nd : XNode) (rawName idxStr handler : String) (kid : Int)
    (hname : reqAttr c_nd "name" = .ok rawName)
    (hidx : reqAttr c_nd "index" = .ok idxStr)
    (hkid : pyIntE idxStr = .ok kid)
    (hhandler : reqAttr c_nd "handler" = .ok handler)
    (hdup : (dlookup sp.classes.byname (pythonize rawName)).isSome) :
    loadClassTag domains true sp c_nd = .error .duplicateName := by
  have hadd : sp.classes.add
      ⟨pythonize rawName, kid, handler, SpecContainer.empty,
       SpecContainer.empty, getDocs c_nd⟩ = .error .duplicateName :=
    add_error_of_nameDup hdup
  unfold loadClassTag
  simp only [hname, hidx, hkid, hhandler, hadd, mapErr, LoadErr.ofDup]
  rfl

theorem loadMethodTag_primary_dup (domains : List (String × String))
    (acc : Klass × List Method) (m_nd : XNode)
    (rawName idxStr : String) (mid : Int) (content synch : Bool)
    (resps : List String)
    (hname : reqAttr m_nd "name" = .ok rawName)
    (hidx : reqAttr m_nd "index" = .ok idxStr)
    (hmid : pyIntE idxStr = .ok mid)
    (hcontent : getBoolE m_nd "@content" false = .ok content)
    (hresps : mapE (fun nd =>
        match reqAttr nd "name" with
        | .error e => .error e
        | .ok rn => .ok (pythonize rn)) (childrenNamed m_nd "response") = .ok resps)
    (hsynch : getBoolE m_nd "@synchronous" false = .ok synch)
    (hdup : (dlookup acc.1.methods.byname (pythonize rawName)).isSome) :
    loadMethodTag domains true acc m_nd = .error .duplicateName := by
  have hadd : acc.1.methods.add
      ⟨acc.1.name, pythonize rawName, mid, content, resps, synch,
       m_nd.text, getDocs m_nd, SpecContainer.empty, false⟩ = .error .duplicateName :=
    add_error_of_nameDup hdup
  unfold loadMethodTag
  simp only [hname, hidx, hmid, hcontent, hresps, hsynch, hadd, mapErr, LoadErr.ofDup]
  rfl

/-- C6 counterexample: an overlay cannot add a new method to a previously
    declared class.  On the concrete primary document plus an overlay whose
    class `basic` declares the new method name `reject`, the loader fails
    with NotFound (`klass.methods.byname[mname]` raises `KeyError` in the
    overlay branch) instead of registering the method — refuting "an
    overlay document can add new Methods to a previously declared Class
    (without that addition failing)". -/
theorem C6_overlay_new_method_counterexample :
    load primaryDoc [overlayNewMethodDoc] = .error (.notFound "reject") := by rfl

/-- C6 (amended): overlays extend but never declare.  An overlay class tag
    must name an existing class (else NotFound) and an overlay method tag
    must name an existing method of that class (else NotFound — overlays
    cannot add new methods); when they name existing identities they
    resolve them and succeed, adding any new fields to the resolved
    class/method without a duplicate-identity failure (overlays never
    register classes or methods, so no such conflict can arise there); a
    primary document redeclaring a class or method name within itself
    fails with DuplicateIdentity. -/
theorem C6_overlay_semantics :
    (∀ (domains : List (String × String)) (sp : Spec) (c_nd : XNode) (rawName : String),
        reqAttr c_nd "name" = .ok rawName →
        dlookup sp.classes.byname (pythonize rawName) = none →
        loadClassTag domains false sp c_nd = .error (.notFound (pythonize rawName))) ∧
    (∀ (domains : List (String × String)) (acc : Klass × List Method) (m_nd : XNode)
        (rawName : String),
        reqAttr m_nd "name" = .ok rawName →
        dlookup acc.1.methods.byname (pythonize rawName) = none →
        loadMethodTag domains false acc m_nd = .error (.notFound (pythonize rawName))) ∧
    (∀ (domains : List (String × String)) (sp : Spec) (c_nd : XNode)
        (rawName idxStr handler : String) (kid : Int),
        reqAttr c_nd "name" = .ok rawName →
        reqAttr c_nd "index" = .ok idxStr →
        pyIntE idxStr = .ok kid →
        reqAttr c_nd "handler" = .ok handler →
        (dlookup sp.classes.byname (pythonize rawName)).isSome →
        loadClassTag domains true sp c_nd = .error .duplicateName) ∧
    (∀ (domains : List (String × String)) (acc : Klass × List Method) (m_nd : XNode)
        (rawName idxStr : String) (mid : Int) (content synch : Bool) (resps : List String),
        reqAttr m_nd "name" = .ok rawName →
        reqAttr m_nd "index" = .ok idxStr →
        pyIntE idxStr = .ok mid →
        getBoolE m_nd "@content" false = .ok content →
        mapE (fun nd =>
            match reqAttr nd "name" with
            | .error e => .error e
            | .ok rn => .ok (pythonize rn)) (childrenNamed m_nd "response") = .ok resps →
        getBoolE m_nd "@synchronous" false = .ok synch →
        (dlookup acc.1.methods.byname (pythonize rawName)).isSome →
        loadMethodTag domains true acc m_nd = .error .duplicateName) ∧
    (∀ (domains : List (String × String)) (kl : Klass) (added : List Method)
        (m_nd : XNode) (rawName : String) (meth : Method) (mfields : SpecContainer Field),
        reqAttr m_nd "name" = .ok rawName →
        dlookup kl.methods.byname (pythonize rawName) = some meth →
        load_fields m_nd meth.fields domains = .ok mfields →
        loadMethodTag domains false (kl, added) m_nd =
          .ok ({ kl with methods := kl.methods.modifyByName (pythonize rawName) (fun m => { m with fields := mfields }) }, added)) ∧
    (∀ (domains : List (String × String)) (sp : Spec) (c_nd : XNode)
        (rawName : String) (klass0 klass1 : Klass),
        reqAttr c_nd "name" = .ok rawName →
        dlookup sp.classes.byname (pythonize rawName) = some klass0 →
        loadClassBody klass0 domains c_nd false = .ok klass1 →
        loadClassTag domains false sp c_nd =
          .ok { sp with classes := sp.classes.modifyByName (pythonize rawName) (fun _ => klass1) }) := by
  refine ⟨?_, ?_, ?_, ?_, ?_, ?_⟩
  · intro domains sp c_nd rawName hname hlk
    rw [loadClassTag_overlay_eq domains sp c_nd rawName hname]
    simp only [hlk]
  · intro domains acc m_nd rawName hname hlk
    rw [loadMethodTag_overlay_eq domains acc m_nd rawName hname]
    simp only [hlk]
  · intro domains sp c_nd rawName idxStr handler kid hname hidx hkid hhandler hdup
    exact loadClassTag_primary_dup domains sp c_nd rawName idxStr handler kid
      hname hidx hkid hhandler hdup
  · intro domains acc m_nd rawName idxStr mid content synch resps
      hname hidx hmid hcontent hresps hsynch hdup
    exact loadMethodTag_primary_dup domains acc m_nd rawName idxStr mid content synch
      resps hname hidx hmid hcontent hresps hsynch hdup
  · intro domains kl added m_nd rawName meth mfields hname hlk hfields
    rw [loadMethodTag_overlay_eq domains (kl, added) m_nd rawName hname]
    simp only [hlk, hfields]
  · intro domains sp c_nd rawName klass0 klass1 hname hlk hbody
    rw [loadClassTag_overlay_eq domains sp c_nd rawName hname]
    simp only [hlk, hbody]

def klBasic0 : Klass :=
  ⟨"basic", 60, "channel", SpecContainer.empty, SpecContainer.empty, []⟩

def mGet0 : Method :=
  ⟨"basic", "get", 70, false, ["get_ok"], false, none, [], SpecContainer.empty, false⟩

/-- A class already holding the method `get`. -/
def klGet : Klass :=
  ⟨"basic", 60, "channel", SpecContainer.empty,
   ⟨[mGet0], [("get", mGet0)], [(70, mGet0)], [(mGet0, 0)]⟩, []⟩

/-- A spec already holding the class `basic`. -/
def spDup : Spec :=
  ⟨0, 9, SpecContainer.empty,
   ⟨[klBasic0], [("basic", klBasic0)], [(60, klBasic0)], [(klBasic0, 0)]⟩⟩

def ovFieldMethNd : XNode := .mk "method" [("name", "get")] none [fldQueueNd]

def ovEmptyClassNd : XNode := .mk "class" [("name", "basic")] none []

def qFld : Field := ⟨"queue", 0, "shortstr", []⟩

def qReg : SpecContainer Field := ⟨[qFld], [("queue", qFld)], [(0, qFld)], [(qFld, 0)]⟩

theorem C6_overlay_semantics_witness :
    loadClassTag [] false spC8 ovClassNd = .error (.notFound "basic") ∧
    loadMethodTag [] false (klBasic0, []) ovNewMethodNd = .error (.notFound "reject") ∧
    loadClassTag [] true spDup classBasicNd = .error .duplicateName ∧
    loadMethodTag [] true (klGet, []) methGetNd = .error .duplicateName ∧
    loadMethodTag [] false (klGet, []) ovFieldMethNd =
      .ok ({ klGet with methods := klGet.methods.modifyByName "get" (fun m => { m with fields := qReg }) }, []) ∧
    loadClassTag [] false spDup ovEmptyClassNd =
      .ok { spDup with classes := spDup.classes.modifyByName "basic" (fun _ => klBasic0) } := by
  have h := C6_overlay_semantics
  exact ⟨h.1 [] spC8 ovClassNd "basic" rfl rfl,
         h.2.1 [] (klBasic0, []) ovNewMethodNd "reject" rfl rfl,
         h.2.2.1 [] spDup classBasicNd "basic" "60" "channel" 60 rfl rfl rfl rfl rfl,
         h.2.2.2.1 [] (klGet, []) methGetNd "get" "70" 70 false false ["get_ok"]
           rfl rfl rfl rfl rfl rfl rfl,
         h.2.2.2.2.1 [] klGet [] ovFieldMethNd "get" mGet0 qReg rfl rfl rfl,
         h.2.2.2.2.2 [] spDup ovEmptyClassNd "basic" klBasic0 klBasic0 rfl rfl rfl⟩

/-- Keys of the by-name dict agree with the names of the stored objects
    (true of every registry the loader builds, and preserved by the
    name-preserving in-place updates). -/
def KeyConsistent {α : Type} [DecidableEq α] [HasIdentity α] (c : SpecContainer α) : Prop :=
  ∀ k m, dlookup c.byname k = some m → nameOf m = k

/-- What survives the loader's in-place updates of a registered method:
    the name, the raw response names, and a set is-response flag. -/
def SameCore (m m' : Method) : Prop :=
  m'.name = m.name ∧ m'.responses = m.responses ∧ (m.response = true → m'.response = true)

theorem SameCore.refl (m : Method) : SameCore m m := ⟨rfl, rfl, fun h => h⟩

theorem SameCore.trans {a b c : Method} (h1 : SameCore a b) (h2 : SameCore b c) :
    SameCore a c :=
  ⟨h2.1.trans h1.1, h2.2.1.trans h1.2.1, fun h => h2.2.2 (h1.2.2 h)⟩

theorem modifyByName_byname {α : Type} [DecidableEq α] [HasIdentity α]
    (c : SpecContainer α) (nm : String) (f : α → α) (k : String) :
    dlookup (c.modifyByName nm f).byname k =
      (dlookup c.byname k).map (fun x => if nameOf x = nm then f x else x) := by
  unfold SpecContainer.modifyByName
  show dlookup (c.byname.map (fun p => (p.1, if nameOf p.2 = nm then f p.2 else p.2))) k = _
  exact dlookup_map_value (fun x => if nameOf x = nm then f x else x) c.byname k

theorem KeyConsistent_empty {α : Type} [DecidableEq α] [HasIdentity α] :
    KeyConsistent (SpecContainer.empty (α := α)) := by
  intro k m hm
  cases hm

theorem KeyConsistent_add {α : Type} [DecidableEq α] [HasIdentity α]
    {c c' : SpecContainer α} {x : α} (h : c.add x = .ok c')
    (hc : KeyConsistent c) : KeyConsistent c' := by
  obtain ⟨_, _, _, hbyname, _, _⟩ := add_ok_components h
  intro k m hm
  rw [hbyname, dlookup_cons] at hm
  by_cases hk : nameOf x = k
  · rw [if_pos hk] at hm
    injection hm with hm
    subst hm
    exact hk
  · rw [if_neg hk] at hm
    exact hc k m hm

theorem KeyConsistent_modify {α : Type} [DecidableEq α] [HasIdentity α]
    {c : SpecContainer α} (nm : String) {f : α → α}
    (hf : ∀ m, nameOf (f m) = nameOf m) (hc : KeyConsistent c) :
    KeyConsistent (c.modifyByName nm f) := by
  intro k m hm
  rw [modifyByName_byname] at hm
  cases hl : dlookup c.byname k with
  | none => rw [hl] at hm; cases hm
  | some m0 =>
    rw [hl] at hm
    injection hm with hm
    subst hm
    show nameOf (if nameOf m0 = nm then f m0 else m0) = k
    by_cases h0 : nameOf m0 = nm
    · rw [if_pos h0, hf m0]
      exact hc k m0 hl
    · rw [if_neg h0]
      exact hc k m0 hl

theorem add_preserves_byname {α : Type} [DecidableEq α] [HasIdentity α]
    {c c' : SpecContainer α} {x : α} (h : c.add x = .ok c') :
    ∀ k m, dlookup c.byname k = some m → dlookup c'.byname k = some m := by
  obtain ⟨hn, _, _, hbyname, _, _⟩ := add_ok_components h
  intro k m hm
  rw [hbyname, dlookup_cons]
  by_cases hk : nameOf x = k
  · subst hk
    rw [hn] at hm
    cases hm
  · rw [if_neg hk]
    exact hm

theorem add_new_byname {α : Type} [DecidableEq α] [HasIdentity α]
    {c c' : SpecContainer α} {x : α} (h : c.add x = .ok c') :
    dlookup c'.byname (nameOf x) = some x := by
  obtain ⟨_, _, _, hbyname, _, _⟩ := add_ok_components h
  rw [hbyname, dlookup_cons, if_pos rfl]

theorem modify_preserves_method (ms : SpecContainer Method) (nm : String)
    (f : Method → Method)
    (hf : ∀ m, (f m).name = m.name ∧ (f m).responses = m.responses ∧
      (m.response = true → (f m).response = true)) :
    ∀ k m, dlookup ms.byname k = some m →
      ∃ m', dlookup (ms.modifyByName nm f).byname k = some m' ∧ SameCore m m' := by
  intro k m hm
  rw [modifyByName_byname, hm]
  by_cases h0 : nameOf m = nm
  · exact ⟨f m, by show some (if nameOf m = nm then f m else m) = some (f m); rw [if_pos h0],
      (hf m).1, (hf m).2.1, (hf m).2.2⟩
  · exact ⟨m, by show some (if nameOf m = nm then f m else m) = some m; rw [if_neg h0],
      SameCore.refl m⟩

theorem loadMethodTag_primary_ok {domains : List (String × String)}
    {acc : Klass × List Method} {m_nd : XNode} {kl2 : Klass} {added2 : List Method}
    (h : loadMethodTag domains true acc m_nd = .ok (kl2, added2)) :
    ∃ (rawName : String) (resps : List String) (meth0 : Method)
      (ms : SpecContainer Method) (mfields : SpecContainer Field),
      reqAttr m_nd "name" = .ok rawName ∧
      mapE (fun nd =>
          match reqAttr nd "name" with
          | .error e => .error e
          | .ok rn => .ok (pythonize rn)) (childrenNamed m_nd "response") = .ok resps ∧
      meth0.name = pythonize rawName ∧
      meth0.responses = resps ∧
      meth0.response = false ∧
      acc.1.methods.add meth0 = .ok ms ∧
      kl2.methods = ms.modifyByName (pythonize rawName)
        (fun m => { m with fields := mfields }) ∧
      added2 = acc.2 ++ [meth0] := by
  unfold loadMethodTag at h
  split at h
  · cases h
  · next rawName hname =>
    rw [if_pos rfl] at h
    split at h
    · cases h
    · next idxStr hidx =>
      split at h
      · cases h
      · next mid hmid =>
        split at h
        · cases h
        · next content hcontent =>
          split at h
          · cases h
          · next resps hresps =>
            split at h
            · cases h
            · next synch hsynch =>
              split at h
              · cases h
              · next ms hms =>
                split at h
                · cases h
                · next mfields hmf =>
                  injection h with h
                  injection h with h1 h2
                  rw [mapErr_ok] at hms
                  refine ⟨rawName, resps,
                    ⟨acc.1.name, pythonize rawName, mid, content, resps, synch,
                     m_nd.text, getDocs m_nd, SpecContainer.empty, false⟩,
                    ms, mfields, hname, hresps, rfl, rfl, rfl, hms, ?_, h2.symm⟩
                  rw [← h1]

theorem phase1_props (domains : List (String × String)) :
    ∀ (nds : List XNode) (acc : Klass × List Method) (kl2 : Klass) (added2 : List Method),
      foldE (loadMethodTag domains true) acc nds = .ok (kl2, added2) →
      KeyConsistent acc.1.methods →
      KeyConsistent kl2.methods ∧
      (∀ k m, dlookup acc.1.methods.byname k = some m →
        ∃ m', dlookup kl2.methods.byname k = some m' ∧ SameCore m m') ∧
      (∃ newms, added2 = acc.2 ++ newms ∧
        ∀ mm ∈ newms, ∃ m', dlookup kl2.methods.byname mm.name = some m' ∧ SameCore mm m') ∧
      (∀ m_nd ∈ nds, ∀ (rawName : String) (resps : List String),
        reqAttr m_nd "name" = .ok rawName →
        mapE (fun nd =>
            match reqAttr nd "name" with
            | .error e => .error e
            | .ok rn => .ok (pythonize rn)) (childrenNamed m_nd "response") = .ok resps →
        ∃ mm ∈ added2, mm.name = pythonize rawName ∧ mm.responses = resps) := by
  intro nds
  induction nds with
  | nil =>
    intro acc kl2 added2 h hkc
    obtain ⟨kl0, add0⟩ := acc
    rw [foldE_nil] at h
    injection h with h
    injection h with h1 h2
    subst h1
    subst h2
    refine ⟨hkc, fun k m hm => ⟨m, hm, SameCore.refl m⟩, ⟨[], by simp, by simp⟩, ?_⟩
    intro m_nd hmem
    cases hmem
  | cons m_nd nds ih =>
    intro acc kl2 added2 h hkc
    rw [foldE_cons] at h
    cases hstep : loadMethodTag domains true acc m_nd with
    | error e => rw [hstep] at h; cases h
    | ok acc1 =>
      rw [hstep] at h
      obtain ⟨kl1, added1⟩ := acc1
      obtain ⟨rawName, resps, meth0, ms, mfields, hname, hresps, hm0name, hm0resps,
        hm0flag, hadd, hkl1, hadded1⟩ := loadMethodTag_primary_ok hstep
      have hupd : ∀ m : Method,
          (({ m with fields := mfields } : Method)).name = m.name ∧
          (({ m with fields := mfields } : Method)).responses = m.responses ∧
          (m.response = true → (({ m with fields := mfields } : Method)).response = true) :=
        fun m => ⟨rfl, rfl, fun hf => hf⟩
      have hkc1 : KeyConsistent kl1.methods := by
        rw [hkl1]
        exact KeyConsistent_modify _ (fun m => rfl) (KeyConsistent_add hadd hkc)
      have hpres1 : ∀ k m, dlookup acc.1.methods.byname k = some m →
          ∃ m', dlookup kl1.methods.byname k = some m' ∧ SameCore m m' := by
        intro k m hm
        rw [hkl1]
        exact modify_preserves_method ms (pythonize rawName) _ hupd k m
          (add_preserves_byname hadd k m hm)
      have hnew1 : ∃ m', dlookup kl1.methods.byname meth0.name = some m' ∧
          SameCore meth0 m' := by
        rw [hkl1]
        exact modify_preserves_method ms (pythonize rawName) _ hupd meth0.name meth0
          (add_new_byname hadd)
      obtain ⟨hkc2, hpres2, ⟨newms2, hdec2, hnewms2⟩, hdecl2⟩ :=
        ih (kl1, added1) kl2 added2 h hkc1
      refine ⟨hkc2, ?_, ?_, ?_⟩
      · intro k m hm
        obtain ⟨m1, hm1, hc1⟩ := hpres1 k m hm
        obtain ⟨m2, hm2, hc2⟩ := hpres2 k m1 hm1
        exact ⟨m2, hm2, hc1.trans hc2⟩
      · refine ⟨meth0 :: newms2, ?_, ?_⟩
        · rw [hdec2, hadded1, List.append_assoc]
          rfl
        · intro mm hmm
          rcases List.mem_cons.mp hmm with rfl | hmm
          · obtain ⟨m1, hm1, hc1⟩ := hnew1
            obtain ⟨m2, hm2, hc2⟩ := hpres2 mm.name m1 hm1
            exact ⟨m2, hm2, hc1.trans hc2⟩
          · exact hnewms2 mm hmm
      · intro m_nd2 hmem rawName2 resps2 hname2 hresps2
        rcases List.mem_cons.mp hmem with rfl | hmem
        · have he1 : rawName2 = rawName := by
            have h3 := hname.symm.trans hname2
            injection h3 with h4
            exact h4.symm
          have he2 : resps2 = resps := by
            have h3 := hresps.symm.trans hresps2
            injection h3 with h4
            exact h4.symm
          subst he1
          subst he2
          refine ⟨meth0, ?_, hm0name, hm0resps⟩
          rw [hdec2, hadded1]
          exact List.mem_append_left _ (List.mem_append_right _ (List.mem_cons_self _ _))
        · exact hdecl2 m_nd2 hmem rawName2 resps2 hname2 hresps2

theorem flagFold_pres :
    ∀ (rs : List String) (ms2 : SpecContainer Method) (k : String) (m : Method),
      dlookup ms2.byname k = some m →
      ∃ m', dlookup (rs.foldl
          (fun ms3 r => ms3.modifyByName r (fun mm => { mm with response := true }))
          ms2).byname k = some m' ∧ SameCore m m' := by
  intro rs
  induction rs with
  | nil =>
    intro ms2 k m hm
    exact ⟨m, hm, SameCore.refl m⟩
  | cons r0 rs ih =>
    intro ms2 k m hm
    rw [List.foldl_cons]
    obtain ⟨m1, hm1, hc1⟩ := modify_preserves_method ms2 r0
      (fun mm => { mm with response := true })
      (fun m => ⟨rfl, rfl, fun _ => rfl⟩) k m hm
    obtain ⟨m2, hm2, hc2⟩ := ih _ k m1 hm1
    exact ⟨m2, hm2, hc1.trans hc2⟩

theorem flagFold_kc :
    ∀ (rs : List String) (ms2 : SpecContainer Method), KeyConsistent ms2 →
      KeyConsistent (rs.foldl
        (fun ms3 r => ms3.modifyByName r (fun mm => { mm with response := true })) ms2) := by
  intro rs
  induction rs with
  | nil => intro ms2 h; exact h
  | cons r0 rs ih =>
    intro ms2 h
    rw [List.foldl_cons]
    have hupd : ∀ m : Method,
        nameOf ((fun mm => ({ mm with response := true } : Method)) m) = nameOf m :=
      fun m => rfl
    exact ih _ (KeyConsistent_modify r0 hupd h)

theorem flagFold_flag :
    ∀ (rs : List String) (ms2 : SpecContainer Method), KeyConsistent ms2 →
      ∀ r ∈ rs, ∀ m0, dlookup ms2.byname r = some m0 →
        ∃ m', dlookup (rs.foldl
            (fun ms3 r => ms3.modifyByName r (fun mm => { mm with response := true }))
            ms2).byname r = some m' ∧ m'.response = true := by
  intro rs
  induction rs with
  | nil =>
    intro ms2 _ r hr
    cases hr
  | cons r0 rs ih =>
    intro ms2 hkc r hr m0 hm0
    rw [List.foldl_cons]
    rcases List.mem_cons.mp hr with rfl | hr
    · have hname : nameOf m0 = r := hkc r m0 hm0
      have hlook : dlookup (ms2.modifyByName r
          (fun mm => { mm with response := true })).byname r =
          some { m0 with response := true } := by
        rw [modifyByName_byname, hm0]
        show some (if nameOf m0 = r then { m0 with response := true } else m0) = _
        rw [if_pos hname]
      obtain ⟨m2, hm2, hc2⟩ := flagFold_pres rs _ r _ hlook
      exact ⟨m2, hm2, hc2.2.2 rfl⟩
    · have hupd : ∀ m : Method,
          nameOf ((fun mm => ({ mm with response := true } : Method)) m) = nameOf m :=
        fun m => rfl
      have hkc' := KeyConsistent_modify r0 hupd hkc
      have hm0' : dlookup (ms2.modifyByName r0
          (fun mm => { mm with response := true })).byname r =
          some (if nameOf m0 = r0 then { m0 with response := true } else m0) := by
        rw [modifyByName_byname, hm0]
        rfl
      exact ih _ hkc' r hr _ hm0'

theorem forall2_left_mem {α β : Type} {R : α → β → Prop} :
    ∀ {l : List α} {ys : List β}, List.Forall₂ R l ys → ∀ x ∈ l, ∃ y, R x y := by
  intro l ys h
  induction h with
  | nil =>
    intro x hx
    cases hx
  | cons h1 _ ih =>
    intro x hx
    rcases List.mem_cons.mp hx with rfl | hx
    · exact ⟨_, h1⟩
    · exact ih x hx

theorem respCheck_present (ms2 : SpecContainer Method) (rs : List String) (l : List String)
    (h : mapE (fun r =>
        match dlookup ms2.byname r with
        | some _ => Except.ok r
        | none => Except.error (LoadErr.notFound r)) rs = .ok l) :
    ∀ r ∈ rs, ∃ m0, dlookup ms2.byname r = some m0 := by
  intro r hr
  obtain ⟨y, hy⟩ := forall2_left_mem (mapE_forall2 _ rs l h) r hr
  have hy' : (match dlookup ms2.byname r with
      | some _ => Except.ok r
      | none => Except.error (LoadErr.notFound r)) = Except.ok y := hy
  cases hm : dlookup ms2.byname r with
  | none =>
    rw [hm] at hy'
    cases hy'
  | some m0 => exact ⟨m0, rfl⟩

theorem phase2_props :
    ∀ (added : List Method) (ms2 msF : SpecContainer Method),
      resolveResponses added ms2 = .ok msF → KeyConsistent ms2 →
      KeyConsistent msF ∧
      (∀ k m, dlookup ms2.byname k = some m →
        ∃ m', dlookup msF.byname k = some m' ∧ SameCore m m') ∧
      (∀ mm ∈ added, ∀ r ∈ mm.responses,
        ∃ m', dlookup msF.byname r = some m' ∧ m'.response = true) := by
  intro added
  induction added with
  | nil =>
    intro ms2 msF h hkc
    unfold resolveResponses at h
    rw [foldE_nil] at h
    injection h with h
    subst h
    exact ⟨hkc, fun k m hm => ⟨m, hm, SameCore.refl m⟩, fun mm hmm => by cases hmm⟩
  | cons m added ih =>
    intro ms2 msF h hkc
    unfold resolveResponses at h
    rw [foldE_cons] at h
    split at h
    · cases h
    next s' hs' =>
      have hs2 : (match mapE (fun r =>
            match dlookup ms2.byname r with
            | some _ => Except.ok r
            | none => Except.error (LoadErr.notFound r)) m.responses with
          | Except.error e => Except.error e
          | Except.ok _ => Except.ok (m.responses.foldl
              (fun ms3 r => ms3.modifyByName r (fun mm => { mm with response := true }))
              ms2)) = Except.ok s' := hs'
      split at hs2
      · cases hs2
      next l hchk =>
        injection hs2 with hs2
        subst hs2
        have h4 : resolveResponses added
            (m.responses.foldl
              (fun ms3 r => ms3.modifyByName r (fun mm => { mm with response := true }))
              ms2) = .ok msF := h
        have hkc' := flagFold_kc m.responses ms2 hkc
        obtain ⟨hkcF, hpresF, hflagF⟩ := ih _ msF h4 hkc'
        refine ⟨hkcF, ?_, ?_⟩
        · intro k m0 hm0
          obtain ⟨m1, hm1, hc1⟩ := flagFold_pres m.responses ms2 k m0 hm0
          obtain ⟨m2, hm2, hc2⟩ := hpresF k m1 hm1
          exact ⟨m2, hm2, hc1.trans hc2⟩
        · intro mm hmm r hr
          rcases List.mem_cons.mp hmm with rfl | hmm
          · obtain ⟨m0, hm0⟩ := respCheck_present ms2 mm.responses l hchk r hr
            obtain ⟨m1, hm1, hflag1⟩ := flagFold_flag mm.responses ms2 hkc r hr m0 hm0
            obtain ⟨m2, hm2, hc2⟩ := hpresF r m1 hm1
            exact ⟨m2, hm2, hc2.2.2 hflag1⟩
          · exact hflagF mm hmm r hr

/-- A response tag naming a method that is never declared in its class. -/
def respMissingNd : XNode := .mk "response" [("name", "missing")] none []

def methBadNd : XNode := .mk "method" [("name", "bad"), ("index", "1")] none [respMissingNd]

def badClassNd : XNode :=
  .mk "class" [("name", "bad_class"), ("index", "99"), ("handler", "channel")] none [methBadNd]

/-- C4: response resolution is two-phase and total over the registry. After a
    primary-document class body loads successfully, every method tag whose name
    and response names were extracted is registered under its pythonized name
    with exactly the declared raw response list, in declared order, and every
    one of those response names is registered in the same class's method
    registry with its is-response flag set true — even when the response names
    a sibling method declared later in the class, since resolution runs only
    after the whole method loop (`classBasicNd`'s first method references the
    second this way, see the witness). A response name matching no sibling
    method makes the class load fail with NotFound, as on `badClassNd`. -/
theorem C4_response_resolution
    (kl : Klass) (domains : List (String × String)) (c_nd : XNode) (kl2 : Klass)
    (h : loadClassBody kl domains c_nd true = .ok kl2)
    (hkc : KeyConsistent kl.methods) :
    (∀ m_nd ∈ childrenNamed c_nd "method", ∀ (rawName : String) (resps : List String),
      reqAttr m_nd "name" = .ok rawName →
      mapE (fun nd =>
          match reqAttr nd "name" with
          | .error e => .error e
          | .ok rn => .ok (pythonize rn)) (childrenNamed m_nd "response") = .ok resps →
      ∃ meth, dlookup kl2.methods.byname (pythonize rawName) = some meth ∧
        meth.responses = resps ∧
        ∀ r ∈ resps, ∃ respM, dlookup kl2.methods.byname r = some respM ∧
          respM.response = true) ∧
    loadClassBody klBasic0 [] badClassNd true = .error (.notFound "missing") := by
  constructor
  · intro m_nd hmem rawName resps hname hresps
    unfold loadClassBody at h
    split at h
    · cases h
    next cfields hcf =>
      split at h
      · cases h
      next pr hfold =>
        obtain ⟨kl1, added1⟩ := pr
        split at h
        · cases h
        next methods2 hres =>
          injection h with h
          subst h
          have hkc0 : KeyConsistent ({ kl with fields := cfields } : Klass).methods := hkc
          obtain ⟨hkc1, hpres1, ⟨newms, hnew, hnewms⟩, hdecl⟩ :=
            phase1_props domains (childrenNamed c_nd "method")
              ({ kl with fields := cfields }, []) kl1 added1 hfold hkc0
          obtain ⟨hkc2, hpres2, hflag2⟩ := phase2_props added1 kl1.methods methods2 hres hkc1
          obtain ⟨mm, hmm, hmmname, hmmresps⟩ := hdecl m_nd hmem rawName resps hname hresps
          have hmmnew : mm ∈ newms := by
            rw [hnew] at hmm
            simpa using hmm
          obtain ⟨m1, hm1, hc1⟩ := hnewms mm hmmnew
          obtain ⟨meth, hmeth, hc2⟩ := hpres2 mm.name m1 hm1
          have hcc := hc1.trans hc2
          refine ⟨meth, ?_, ?_, ?_⟩
          · show dlookup methods2.byname (pythonize rawName) = some meth
            rw [← hmmname]
            exact hmeth
          · rw [hcc.2.1, hmmresps]
          · intro r hr
            have hr' : r ∈ mm.responses := by
              rw [hmmresps]
              exact hr
            obtain ⟨respM, hrm, hrflag⟩ := hflag2 mm hmm r hr'
            exact ⟨respM, hrm, hrflag⟩
  · rfl

theorem C4_response_resolution_witness :
    ∃ kl2 meth respM,
      loadClassBody klBasic0 [] classBasicNd true = .ok kl2 ∧
      dlookup kl2.methods.byname "get" = some meth ∧
      meth.responses = ["get_ok"] ∧
      dlookup kl2.methods.byname "get_ok" = some respM ∧
      respM.response = true := by
  obtain ⟨kl2, hload⟩ : ∃ kl2, loadClassBody klBasic0 [] classBasicNd true = .ok kl2 :=
    ⟨_, rfl⟩
  have hkc : KeyConsistent klBasic0.methods := by
    intro k m hm
    have h0 : (none : Option Method) = some m := hm
    cases h0
  have hmain := (C4_response_resolution klBasic0 [] classBasicNd kl2 hload hkc).1
  have hmem : methGetNd ∈ childrenNamed classBasicNd "method" := List.mem_cons_self _ _
  have hget := hmain methGetNd hmem "get" ["get_ok"] rfl rfl
  obtain ⟨meth, h1, h2, h3⟩ := hget
  obtain ⟨respM, h4, h5⟩ := h3 "get_ok" (List.mem_cons_self _ _)
  exact ⟨kl2, meth, respM, hload, h1, h2, h4, h5⟩
